import Mathlib

/-!
Verification of the holiday-calendar engine in `app/holidays.py`
(HolidayBase, Colombia, createHolidaySum).

Dates are modelled as (year, month, day) triples with proleptic-Gregorian
ordinal arithmetic matching Python's `datetime.date`; the calendar mapping
is an insertion-ordered association list matching Python `dict` semantics;
`dateutil.easter` (Western method) is embedded over `Int` with Euclidean
division, which agrees with Python's floor division and modulo because every
divisor in the algorithm is positive.
-/

/-! ### Strings: Python `str.find(sub) >= 0` is substring occurrence -/

/-- Does the second list occur as a leading block of the first? -/
def startsW : List Char → List Char → Bool
  | _, [] => true
  | [], _ :: _ => false
  | a :: as, b :: bs => a == b && startsW as bs

/-- Does `needle` occur contiguously anywhere in `hay`?  This is exactly
`hay.find(needle) >= 0` in Python. -/
def hasSubL : List Char → List Char → Bool
  | [], needle => startsW [] needle
  | h :: t, needle => startsW (h :: t) needle || hasSubL t needle

/-- Python `s.find(sub) >= 0`. -/
def sContains (s sub : String) : Bool := hasSubL s.data sub.data

/-! ### Dates -/

structure Date where
  y : ℕ
  m : ℕ
  d : ℕ
deriving DecidableEq, Repr

/-- Gregorian leap-year rule, as in `datetime`. -/
def isLeap (y : ℕ) : Bool := y % 4 == 0 && (y % 100 != 0 || y % 400 == 0)

/-- Length of month `m` (1..12). -/
def monthLen (leap : Bool) (m : ℕ) : ℕ :=
  match m with
  | 1 => 31
  | 2 => if leap then 29 else 28
  | 3 => 31
  | 4 => 30
  | 5 => 31
  | 6 => 30
  | 7 => 31
  | 8 => 31
  | 9 => 30
  | 10 => 31
  | 11 => 30
  | _ => 31

/-- Days before month `m` in a common year. -/
def monthCum (m : ℕ) : ℕ :=
  match m with
  | 1 => 0
  | 2 => 31
  | 3 => 59
  | 4 => 90
  | 5 => 120
  | 6 => 151
  | 7 => 181
  | 8 => 212
  | 9 => 243
  | 10 => 273
  | 11 => 304
  | _ => 334

/-- Days before month `m`, adjusted for leap years. -/
def daysBeforeMonth (leap : Bool) (m : ℕ) : ℕ :=
  monthCum m + (if leap && decide (3 ≤ m) then 1 else 0)

def yearLen (y : ℕ) : ℕ := if isLeap y then 366 else 365

/-- Day-of-year of a date (Jan 1 is 1). -/
def doyOf (dt : Date) : ℕ := daysBeforeMonth (isLeap dt.y) dt.m + dt.d

/-- Days in all years before year `y`; `daysBeforeYear y + doy` is
Python's `date.toordinal()` (Jan 1 of year 1 is ordinal 1). -/
def daysBeforeYear (y : ℕ) : ℕ :=
  365 * (y - 1) + (y - 1) / 4 - (y - 1) / 100 + (y - 1) / 400

/-- Python `date.toordinal()`. -/
def ordOf (dt : Date) : ℕ := daysBeforeYear dt.y + doyOf dt

/-- Python `date.weekday()`: Monday is 0, Sunday is 6. -/
def weekday (dt : Date) : ℕ := (ordOf dt + 6) % 7

/-- Month and day of the `n`-th day of a year (month scan; the fuel 11
suffices to walk from January to December). -/
def mdOfDoyGo (leap : Bool) : ℕ → ℕ → ℕ → ℕ × ℕ
  | 0, m, n => (m, n)
  | fuel + 1, m, n =>
    if n ≤ monthLen leap m then (m, n)
    else mdOfDoyGo leap fuel (m + 1) (n - monthLen leap m)

/-- Date of the `n`-th day of year `y`. -/
def dateOfDoy (y n : ℕ) : Date :=
  let md := mdOfDoyGo (isLeap y) 11 1 n
  ⟨y, md.1, md.2⟩

/-- A structurally valid Gregorian date (what `datetime.date` accepts,
ignoring the 9999 upper year bound). -/
def ValidDate (dt : Date) : Prop :=
  1 ≤ dt.y ∧ 1 ≤ dt.m ∧ dt.m ≤ 12 ∧ 1 ≤ dt.d ∧ dt.d ≤ monthLen (isLeap dt.y) dt.m

instance (dt : Date) : Decidable (ValidDate dt) := by
  unfold ValidDate; infer_instance

/-- Walk `date + timedelta(days = n)` year by year; the fuel bounds the
number of year steps (each consumes at least one day, so `n + 1` is
enough), keeping the recursion structural so that terms reduce. -/
def addDaysGo : ℕ → Date → ℕ → Date
  | 0, dt, _ => dt
  | fuel + 1, dt, n =>
    if doyOf dt + n ≤ yearLen dt.y then dateOfDoy dt.y (doyOf dt + n)
    else if 1 ≤ doyOf dt ∧ doyOf dt ≤ yearLen dt.y then
      addDaysGo fuel ⟨dt.y + 1, 1, 1⟩ (doyOf dt + n - yearLen dt.y - 1)
    else dt

/-- Python `date + timedelta(days = n)` for `n ≥ 0`. -/
def addDays (dt : Date) (n : ℕ) : Date := addDaysGo (n + 1) dt n

/-- Walk `date - timedelta(days = n)` year by year (clamped below year 1,
which Python would reject with OverflowError). -/
def subDaysGo : ℕ → Date → ℕ → Date
  | 0, dt, _ => dt
  | fuel + 1, dt, n =>
    if n < doyOf dt then dateOfDoy dt.y (doyOf dt - n)
    else if 2 ≤ dt.y ∧ 1 ≤ doyOf dt then
      subDaysGo fuel ⟨dt.y - 1, 12, 31⟩ (n - doyOf dt)
    else dt

/-- Python `date - timedelta(days = n)` for `n ≥ 0`. -/
def subDays (dt : Date) (n : ℕ) : Date := subDaysGo (n + 1) dt n

theorem addDaysGo_congr : ∀ (f1 : ℕ) {f2 : ℕ} {dt : Date} {n : ℕ},
    n < f1 → n < f2 → addDaysGo f1 dt n = addDaysGo f2 dt n := by
  intro f1
  induction f1 with
  | zero => intro f2 dt n h1 _; omega
  | succ m ih =>
    intro f2 dt n h1 h2
    obtain ⟨m2, rfl⟩ : ∃ m2, f2 = m2 + 1 := ⟨f2 - 1, by omega⟩
    unfold addDaysGo
    by_cases hA : doyOf dt + n ≤ yearLen dt.y
    · rw [if_pos hA, if_pos hA]
    · rw [if_neg hA, if_neg hA]
      by_cases hB : 1 ≤ doyOf dt ∧ doyOf dt ≤ yearLen dt.y
      · rw [if_pos hB, if_pos hB]
        exact ih (by omega) (by omega)
      · rw [if_neg hB, if_neg hB]

theorem subDaysGo_congr : ∀ (f1 : ℕ) {f2 : ℕ} {dt : Date} {n : ℕ},
    n < f1 → n < f2 → subDaysGo f1 dt n = subDaysGo f2 dt n := by
  intro f1
  induction f1 with
  | zero => intro f2 dt n h1 _; omega
  | succ m ih =>
    intro f2 dt n h1 h2
    obtain ⟨m2, rfl⟩ : ∃ m2, f2 = m2 + 1 := ⟨f2 - 1, by omega⟩
    unfold subDaysGo
    by_cases hA : n < doyOf dt
    · rw [if_pos hA, if_pos hA]
    · rw [if_neg hA, if_neg hA]
      by_cases hB : 2 ≤ dt.y ∧ 1 ≤ doyOf dt
      · rw [if_pos hB, if_pos hB]
        exact ih (by omega) (by omega)
      · rw [if_neg hB, if_neg hB]

/-- The one-step unfolding of `addDays`. -/
theorem addDays_eq (dt : Date) (n : ℕ) :
    addDays dt n
      = if doyOf dt + n ≤ yearLen dt.y then dateOfDoy dt.y (doyOf dt + n)
        else if 1 ≤ doyOf dt ∧ doyOf dt ≤ yearLen dt.y then
          addDays ⟨dt.y + 1, 1, 1⟩ (doyOf dt + n - yearLen dt.y - 1)
        else dt := by
  show addDaysGo (n + 1) dt n = _
  unfold addDaysGo
  by_cases hA : doyOf dt + n ≤ yearLen dt.y
  · rw [if_pos hA, if_pos hA]
  · rw [if_neg hA, if_neg hA]
    by_cases hB : 1 ≤ doyOf dt ∧ doyOf dt ≤ yearLen dt.y
    · rw [if_pos hB, if_pos hB]
      exact addDaysGo_congr n (by omega) (by omega)
    · rw [if_neg hB, if_neg hB]

/-- The one-step unfolding of `subDays`. -/
theorem subDays_eq (dt : Date) (n : ℕ) :
    subDays dt n
      = if n < doyOf dt then dateOfDoy dt.y (doyOf dt - n)
        else if 2 ≤ dt.y ∧ 1 ≤ doyOf dt then
          subDays ⟨dt.y - 1, 12, 31⟩ (n - doyOf dt)
        else dt := by
  show subDaysGo (n + 1) dt n = _
  unfold subDaysGo
  by_cases hA : n < doyOf dt
  · rw [if_pos hA, if_pos hA]
  · rw [if_neg hA, if_neg hA]
    by_cases hB : 2 ≤ dt.y ∧ 1 ≤ doyOf dt
    · rw [if_pos hB, if_pos hB]
      exact subDaysGo_congr n (by omega) (by omega)
    · rw [if_neg hB, if_neg hB]

/-- Python `date + timedelta(days = z)` for a signed day count. -/
def addZ (dt : Date) (z : ℤ) : Date :=
  if 0 ≤ z then addDays dt z.toNat else subDays dt (-z).toNat

/-- Python `(a - b).days` for two dates. -/
def dateDiff (a b : Date) : ℤ := (ordOf a : ℤ) - (ordOf b : ℤ)

/-- dateutil `date + rd(weekday=MO)`: next Monday on or after the date. -/
def nextMon (dt : Date) : Date := addDays dt ((7 - weekday dt) % 7)

/-- dateutil `date + rd(weekday=W(-1))`: last weekday `target` on or
before the date (`target` in Python weekday numbering). -/
def prevWeekday (dt : Date) (target : ℕ) : Date :=
  subDays dt ((weekday dt + 7 - target) % 7)

/-! ### dateutil easter, Western (method 3)

Every division and modulus in the Python source has a positive divisor, so
Python's floor `//` and `%` coincide with `Int.ediv` and `Int.emod`. -/

/-- Easter: `g = y % 19`. -/
def eG (y : ℤ) : ℤ := y % 19

/-- Easter: `c = y // 100`. -/
def eC (y : ℤ) : ℤ := y / 100

/-- Easter: `h = (c - c//4 - (8*c + 13)//25 + 19*g + 15) % 30`. -/
def eH (y : ℤ) : ℤ :=
  (eC y - eC y / 4 - (8 * eC y + 13) / 25 + 19 * eG y + 15) % 30

/-- Easter: `i = h - (h//28)*(1 - (h//28)*(29//(h + 1))*((21 - g)//11))`. -/
def eI (y : ℤ) : ℤ :=
  eH y - eH y / 28 * (1 - eH y / 28 * (29 / (eH y + 1)) * ((21 - eG y) / 11))

/-- Easter: `j = (y + y//4 + i + 2 - c + c//4) % 7`. -/
def eJ (y : ℤ) : ℤ :=
  (y + y / 4 + eI y + 2 - eC y + eC y / 4) % 7

/-- Easter: `p = i - j` (plus `e = 0` for the Western method). -/
def eP (y : ℤ) : ℤ := eI y - eJ y

/-- Month and day of Western Easter Sunday, from `dateutil.easter`:
`d = 1 + (p + 27 + (p + 6)//40) % 31`, `m = 3 + (p + 26)//30`. -/
def easterMD (year : ℕ) : ℤ × ℤ :=
  (3 + (eP year + 26) / 30,
   1 + (eP year + 27 + (eP year + 6) / 40) % 31)

/-- Western Easter Sunday of a year as a date. -/
def easterDate (year : ℕ) : Date :=
  ⟨year, (easterMD year).1.toNat, (easterMD year).2.toNat⟩

/-! ### The calendar mapping

Python `dict` keeps keys unique and insertion-ordered; updating an existing
key keeps its position, a fresh key is appended.  `HolidayBase.__setitem__`
first merges the new name with an existing entry (comma-join unless either
text already contains the other). -/

abbrev Dict := List (Date × String)

def dLookup : Dict → Date → Option String
  | [], _ => none
  | (k, v) :: t, key => if key = k then some v else dLookup t key

/-- Raw `dict.__setitem__`: replace in place or append. -/
def dSetRaw : Dict → Date → String → Dict
  | [], k, v => [(k, v)]
  | (k1, v1) :: t, k, v =>
    if k = k1 then (k1, v) :: t else (k1, v1) :: dSetRaw t k v

/-- The merge rule of `HolidayBase.__setitem__` for an existing entry:
`value = "%s, %s" % (value, old)` unless one text contains the other, in
which case the old entry wins. -/
def mergeVal (old new : String) : String :=
  if !sContains old new && !sContains new old then new ++ ", " ++ old else old

/-- `HolidayBase.__setitem__` at the mapping level. -/
def dSet (D : Dict) (k : Date) (v : String) : Dict :=
  match dLookup D k with
  | some old => dSetRaw D k (mergeVal old v)
  | none => dSetRaw D k v

/-- Insert a list of (date, name) pairs in order. -/
def dFold (D : Dict) (items : List (Date × String)) : Dict :=
  items.foldl (fun acc kv => dSet acc kv.1 kv.2) D

def dKeysNodup (D : Dict) : Prop := (D.map Prod.fst).Nodup

instance (D : Dict) : Decidable (dKeysNodup D) := by
  unfold dKeysNodup
  exact List.nodupDecidable _

/-! ### Colombia rule table (`Colombia._populate`), in source order -/

/-- A strict-weekend (non-movable) holiday: skipped entirely when
`observed` is set and the raw date falls on Saturday (5) or Sunday (6). -/
def strictSeg (observed : Bool) (raw : Date) (name : String) : List (Date × String) :=
  if observed && (weekday raw == 5 || weekday raw == 6) then [] else [(raw, name)]

/-- An Emiliani-law (movable-to-Monday) holiday: kept on the raw date when
it is a Monday or `observed` is off, otherwise recorded on the next Monday
with the literal suffix `"(Observed)"` (no space, as in the source). -/
def emilEntry (observed : Bool) (raw : Date) (name : String) : Date × String :=
  if weekday raw == 0 || !observed then (raw, name)
  else (nextMon raw, name ++ "(Observed)")

/-- The exact insertion sequence performed by `Colombia._populate(year)`. -/
def colombiaList (observed : Bool) (year : ℕ) : List (Date × String) :=
  strictSeg observed ⟨year, 1, 1⟩ "Año Nuevo [New Year\x27s Day]"
  ++ [(⟨year, 5, 1⟩, "Día del Trabajo [Labour Day]")]
  ++ strictSeg observed ⟨year, 7, 20⟩ "Día de la Independencia [Independence Day]"
  ++ [(⟨year, 8, 7⟩, "Batalla de Boyacá [Battle of Boyacá]")]
  ++ strictSeg observed ⟨year, 12, 8⟩ "La Inmaculada Concepción [Immaculate Conception]"
  ++ [(⟨year, 12, 25⟩, "Navidad [Christmas]")]
  ++ [emilEntry observed ⟨year, 1, 6⟩ "Día de los Reyes Magos [Epiphany]"]
  ++ [emilEntry observed ⟨year, 3, 19⟩ "Día de San José [Saint Joseph\x27s Day]"]
  ++ [emilEntry observed ⟨year, 6, 29⟩ "San Pedro y San Pablo [Saint Peter and Saint Paul]"]
  ++ [emilEntry observed ⟨year, 8, 15⟩ "La Asunción [Assumption of Mary]"]
  ++ [emilEntry observed ⟨year, 10, 12⟩ "Descubrimiento de América [Discovery of America]"]
  ++ [emilEntry observed ⟨year, 11, 1⟩ "Dia de Todos los Santos [All Saint\x27s Day]"]
  ++ [emilEntry observed ⟨year, 11, 11⟩ "Independencia de Cartagena [Independence of Cartagena]"]
  ++ [(prevWeekday (easterDate year) 3, "Jueves Santo [Maundy Thursday]")]
  ++ [(prevWeekday (easterDate year) 4, "Viernes Santo [Good Friday]")]
  ++ [emilEntry observed (addDays (easterDate year) 39) "Ascensión del señor [Ascension of Jesus]"]
  ++ [emilEntry observed (addDays (easterDate year) 60) "Corpus Christi [Corpus Christi]"]
  ++ [emilEntry observed (addDays (easterDate year) 68) "Sagrado Corazón [Sacred Heart]"]

/-! ### Calendar state and operations -/

/-- Observable state of a (Colombia) `HolidayBase` instance: the mapping,
the populated-year set (insertion-ordered), and the two flags. -/
structure HB where
  dict : Dict
  years : List ℕ
  observed : Bool
  expand : Bool
deriving DecidableEq, Repr

/-- `__keytransform__`'s side effect: lazily populate the key's year when
`expand` is on and the year is unseen.  The nested `_populate` call runs
with the year already registered, so it inserts with plain merges. -/
def keyT (st : HB) (k : Date) : HB :=
  if st.expand && !(st.years.contains k.y) then
    { st with
      years := st.years ++ [k.y]
      dict := dFold st.dict (colombiaList st.observed k.y) }
  else st

/-- `self[k] = v`: `__setitem__`, whose `key in self` test first triggers
`__keytransform__` (and possibly lazy population), then merge-insert. -/
def setItemK (st : HB) (k : Date) (v : String) : HB :=
  let st1 := keyT st k
  { st1 with dict := dSet st1.dict k v }

/-- A direct `self._populate(year)` call on a Colombia instance: each rule
is inserted through `__setitem__`. -/
def populateDirect (st : HB) (year : ℕ) : HB :=
  (colombiaList st.observed year).foldl (fun s kv => setItemK s kv.1 kv.2) st

/-- `Colombia(years=ys, observed=o, expand=e)`: years are registered first,
then each is populated. -/
def coInit (years : List ℕ) (observed : Bool) (expand : Bool) : HB :=
  years.foldl (fun s y => populateDirect s y)
    { dict := [], years := years, observed := observed, expand := expand }

/-- `HolidayBase.__setattr__` for `observed`: with entries present, setting
it true clears the year set and mapping and repopulates every previously
requested year; setting it false deletes every entry whose text contains
`"Observed"`. -/
def setObserved (st : HB) (v : Bool) : HB :=
  if st.dict ≠ [] then
    if v then
      st.years.foldl (fun s y => populateDirect s y)
        { dict := [], years := [], observed := v, expand := st.expand }
    else
      { st with
        observed := v
        dict := st.dict.filter (fun kv => !sContains kv.2 "Observed") }
  else { st with observed := v }

/-- Python `range(0, stop, step)` for nonzero `step`. -/
def pyRangeLen (stop step : ℤ) : ℕ :=
  if 0 < step then (Int.ediv (stop + step - 1) step).toNat
  else (Int.ediv (-stop + -step - 1) (-step)).toNat

def pyRange (stop step : ℤ) : List ℤ :=
  (List.range (pyRangeLen stop step)).map (fun i : ℕ => step * (i : ℤ))

/-- `HolidayBase.__getitem__` on a slice: both bounds run through
`__keytransform__`, the step defaults to one day, an effective step of zero
is an error, the step sign is corrected against `stop - start`, and each
generated day is kept when it is a key of the mapping. -/
def sliceGet (st : HB) (start stop : Date) (step? : Option ℤ) :
    Except String (HB × List Date) :=
  let st1 := keyT st start
  let st2 := keyT st1 stop
  let step0 := step?.getD 1
  if step0 = 0 then .error "Step value must not be zero."
  else
    let diff := dateDiff stop start
    let step := if (diff < 0 ∧ 0 ≤ step0) ∨ (0 ≤ diff ∧ step0 < 0) then -step0 else step0
    let days := (pyRange diff step).filterMap (fun δ =>
      let day := addZ start δ
      match dLookup st2.dict day with
      | some _ => some day
      | none => none)
    .ok (st2, days)

/-! ### Calendar composition (`createHolidaySum`) -/

/-- `self.update(mapping)`: insert every item through `__setitem__`. -/
def hbUpdate (st : HB) (items : List (Date × String)) : HB :=
  items.foldl (fun s kv => setItemK s kv.1 kv.2) st

/-- `HolidaySum._populate(year)`: walk the constituents in reverse
registration order, repopulate each, and merge its whole mapping in. -/
def sumPopulateYear (constituents : List HB) (year : ℕ) (st : HB) :
    List HB × HB :=
  let res := constituents.reverse.foldl
    (fun (acc : List HB × HB) h =>
      let h2 := populateDirect h year
      (h2 :: acc.1, hbUpdate acc.2 h2.dict))
    ([], st)
  (res.1, res.2)

/-- The mapping a composite builds for one year from its constituents'
mappings, later-registered constituents merged first. -/
def holidaySumDict (dicts : List Dict) : Dict :=
  dicts.reverse.foldl (fun acc D => dFold acc D) []

/-- Construction of `h1 + h2`: the generated `HolidaySum` is initialised
with the union of years, the disjunction of flags, and populates each year
over the constituent list `[h1, h2]`. -/
def sumInit (h1 h2 : HB) : List HB × HB :=
  let ys := h1.years ++ h2.years.filter (fun y => !h1.years.contains y)
  let base : HB :=
    { dict := []
      years := ys
      observed := h1.observed || h2.observed
      expand := h1.expand || h2.expand }
  ys.foldl (fun acc y => sumPopulateYear acc.1 y acc.2) ([h1, h2], base)

/-- The right operand of `HolidayBase.__add__`. -/
inductive AddOperand
  | int (n : ℤ)
  | cal (h : HB)

/-- Outcome of `HolidayBase.__add__`. -/
inductive AddOutcome
  | unchanged (h : HB)
  | composite (constituents : List HB) (res : HB)
deriving Repr

/-- `HolidayBase.__add__`: adding the integer 0 returns self unchanged, any
other non-calendar raises TypeError, and a calendar builds a HolidaySum. -/
def hbAdd (self : HB) (other : AddOperand) : Except String AddOutcome :=
  match other with
  | .int n => if n = 0 then .ok (.unchanged self) else .error "TypeError"
  | .cal h =>
    let r := sumInit self h
    .ok (.composite r.1 r.2)

/-- `HolidayBase.__radd__` delegates to `__add__`. -/
def hbRadd (self : HB) (other : AddOperand) : Except String AddOutcome :=
  hbAdd self other

/-! ### Lemmas about substring occurrence -/

theorem startsW_nil (l : List Char) : startsW l [] = true := by
  cases l <;> rfl

theorem startsW_append_self (l r : List Char) : startsW (l ++ r) l = true := by
  induction l with
  | nil => exact startsW_nil r
  | cons a t ih => simp [startsW, ih]

theorem startsW_refl (l : List Char) : startsW l l = true := by
  simpa using startsW_append_self l []

theorem hasSubL_of_startsW {h n : List Char} (hs : startsW h n = true) :
    hasSubL h n = true := by
  cases h with
  | nil => simpa [hasSubL] using hs
  | cons a t => simp [hasSubL, hs]

theorem startsW_exists {h n : List Char} (hs : startsW h n = true) :
    ∃ s, h = n ++ s := by
  induction n generalizing h with
  | nil => exact ⟨h, rfl⟩
  | cons b bs ih =>
    cases h with
    | nil => simp [startsW] at hs
    | cons a t =>
      simp only [startsW, Bool.and_eq_true, beq_iff_eq] at hs
      obtain ⟨s, hs'⟩ := ih hs.2
      exact ⟨s, by simp [hs.1, hs']⟩

theorem startsW_of_append {h : List Char} (n s : List Char) (he : h = n ++ s) :
    startsW h n = true := by
  subst he; exact startsW_append_self n s

theorem hasSubL_iff (h n : List Char) :
    hasSubL h n = true ↔ ∃ p s, h = p ++ n ++ s := by
  constructor
  · intro hh
    induction h with
    | nil =>
      simp only [hasSubL] at hh
      obtain ⟨s, hs⟩ := startsW_exists hh
      exact ⟨[], s, by simp [hs]⟩
    | cons a t ih =>
      simp only [hasSubL, Bool.or_eq_true] at hh
      rcases hh with hh | hh
      · obtain ⟨s, hs⟩ := startsW_exists hh
        exact ⟨[], s, by simp [hs]⟩
      · obtain ⟨p, s, hps⟩ := ih hh
        exact ⟨a :: p, s, by simp [hps]⟩
  · rintro ⟨p, s, rfl⟩
    induction p with
    | nil =>
      apply hasSubL_of_startsW
      simpa using startsW_append_self n s
    | cons a t ih =>
      have : hasSubL (a :: (t ++ n ++ s)) n = true := by
        simp only [hasSubL, Bool.or_eq_true]
        right
        exact ih
      simpa using this

theorem hasSubL_self (l : List Char) : hasSubL l l = true := by
  rw [hasSubL_iff]; exact ⟨[], [], by simp⟩

theorem hasSubL_trans {a b c : List Char} (h1 : hasSubL a b = true)
    (h2 : hasSubL b c = true) : hasSubL a c = true := by
  rw [hasSubL_iff] at h1 h2 ⊢
  obtain ⟨p1, s1, rfl⟩ := h1
  obtain ⟨p2, s2, rfl⟩ := h2
  exact ⟨p1 ++ p2, s2 ++ s1, by simp⟩

theorem hasSubL_append_right {b : List Char} (a : List Char) {v : List Char}
    (hb : hasSubL b v = true) : hasSubL (a ++ b) v = true := by
  rw [hasSubL_iff] at hb ⊢
  obtain ⟨p, s, rfl⟩ := hb
  exact ⟨a ++ p, s, by simp⟩

theorem hasSubL_append_left {a : List Char} (b : List Char) {v : List Char}
    (ha : hasSubL a v = true) : hasSubL (a ++ b) v = true := by
  rw [hasSubL_iff] at ha ⊢
  obtain ⟨p, s, rfl⟩ := ha
  exact ⟨p, s ++ b, by simp⟩

theorem startsW_split_long {x y n : List Char} (hs : startsW (x ++ y) n = true)
    (hl : x.length < n.length) : ∃ n', n = x ++ n' ∧ startsW y n' = true ∧ n' ≠ [] := by
  induction x generalizing n with
  | nil =>
    refine ⟨n, by simp, by simpa using hs, ?_⟩
    intro hn
    simp [hn] at hl
  | cons a x' ih =>
    cases n with
    | nil => simp at hl
    | cons b n'' =>
      simp only [List.cons_append, startsW, Bool.and_eq_true, beq_iff_eq] at hs
      have hl' : x'.length < n''.length := by simpa using Nat.lt_of_succ_lt_succ hl
      obtain ⟨n', h1, h2, h3⟩ := ih hs.2 hl'
      exact ⟨n', by simp [hs.1, h1], h2, h3⟩

theorem startsW_short {x y n : List Char} (hs : startsW (x ++ y) n = true)
    (hl : n.length ≤ x.length) : startsW x n = true := by
  induction x generalizing n with
  | nil =>
    cases n with
    | nil => rfl
    | cons b bs => simp at hl
  | cons a x' ih =>
    cases n with
    | nil => rfl
    | cons b bs =>
      simp only [List.cons_append, startsW, Bool.and_eq_true, beq_iff_eq] at hs ⊢
      exact ⟨hs.1, ih hs.2 (by simpa using Nat.le_of_succ_le_succ hl)⟩

theorem hasSubL_cons_tail {t v : List Char} (a : Char) (h : hasSubL t v = true) :
    hasSubL (a :: t) v = true := by
  simp [hasSubL, h]

theorem hasSubL_nil_needle (l : List Char) : hasSubL l [] = true := by
  cases l with
  | nil => rfl
  | cons a t => simp [hasSubL, startsW_nil]

/-- An occurrence of a comma-free word in `as ++ ',' :: bs` lies entirely in
`as` or entirely in `bs`. -/
theorem hasSubL_comma_split {as bs v : List Char} (hv : ',' ∈ v → False)
    (h : hasSubL (as ++ ',' :: bs) v = true) :
    hasSubL as v = true ∨ hasSubL bs v = true := by
  induction as with
  | nil =>
    simp only [List.nil_append, hasSubL, Bool.or_eq_true] at h
    rcases h with h | h
    · cases v with
      | nil => exact Or.inl (hasSubL_nil_needle [])
      | cons c cs =>
        simp only [startsW, Bool.and_eq_true, beq_iff_eq] at h
        refine absurd ?_ hv
        rw [h.1]
        exact List.mem_cons_self _ _
    · exact Or.inr h
  | cons a as' ih =>
    simp only [List.cons_append, hasSubL, Bool.or_eq_true] at h
    rcases h with h | h
    · by_cases hl : v.length ≤ (a :: as').length
      · left
        exact hasSubL_of_startsW (startsW_short (by simpa using h) hl)
      · obtain ⟨v', hv', hsw, hne⟩ :=
          startsW_split_long (x := a :: as') (y := ',' :: bs) (by simpa using h)
            (by omega)
        cases v' with
        | nil => exact absurd rfl hne
        | cons c cs =>
          simp only [startsW, Bool.and_eq_true, beq_iff_eq] at hsw
          refine absurd ?_ hv
          rw [hv']
          exact List.mem_cons_of_mem a (List.mem_append_right as'
            (by rw [hsw.1]; exact List.mem_cons_self _ _))
    · rcases ih h with h' | h'
      · exact Or.inl (hasSubL_cons_tail a h')
      · exact Or.inr h'

/-- A well-behaved holiday label: no comma, and no leading space. -/
def goodLabel (l : List Char) : Prop :=
  (',' ∈ l → False) ∧ (l.head? = some ' ' → False)

instance (l : List Char) : Decidable (goodLabel l) := by
  unfold goodLabel; infer_instance

/-- Join a list of labels with the `", "` separator used by
`HolidayBase.__setitem__`. -/
def sepJoinS : List String → String
  | [] => ""
  | c :: t =>
    match t with
    | [] => c
    | _ :: _ => c ++ ", " ++ sepJoinS t

theorem string_data_append (a b : String) : (a ++ b).data = a.data ++ b.data := rfl

theorem sepJoinS_data_cons (c x : String) (xs : List String) :
    (sepJoinS (c :: x :: xs)).data
      = c.data ++ ',' :: ' ' :: (sepJoinS (x :: xs)).data := by
  have h1 : sepJoinS (c :: x :: xs) = (c ++ ", ") ++ sepJoinS (x :: xs) := rfl
  rw [h1, string_data_append, string_data_append]
  simp

/-- Every component is a substring of the join. -/
theorem sContains_sepJoin_mem {comps : List String} {c : String} (hc : c ∈ comps) :
    sContains (sepJoinS comps) c = true := by
  induction comps with
  | nil => simp at hc
  | cons c0 t ih =>
    rcases List.mem_cons.mp hc with rfl | hmem
    · cases t with
      | nil => exact hasSubL_self c.data
      | cons x xs =>
        unfold sContains
        rw [sepJoinS_data_cons]
        exact hasSubL_of_startsW (startsW_append_self c.data _)
    · cases t with
      | nil => simp at hmem
      | cons x xs =>
        unfold sContains at ih ⊢
        rw [sepJoinS_data_cons]
        exact hasSubL_append_right _
          (hasSubL_cons_tail _ (hasSubL_cons_tail _ (ih hmem)))

/-- A comma-free, non-leading-space, nonempty word occurring in the join
occurs in one of the components. -/
theorem sContains_sepJoin_split {comps : List String} {v : String}
    (hg : goodLabel v.data) (hne : v.data ≠ [])
    (h : sContains (sepJoinS comps) v = true) :
    ∃ c ∈ comps, sContains c v = true := by
  induction comps with
  | nil =>
    unfold sContains at h
    obtain ⟨c, cs, hd⟩ := List.exists_cons_of_ne_nil hne
    rw [hd] at h
    simp [sepJoinS, hasSubL, startsW] at h
  | cons c0 t ih =>
    cases t with
    | nil => exact ⟨c0, List.mem_cons_self c0 [], h⟩
    | cons x xs =>
      unfold sContains at h
      rw [sepJoinS_data_cons] at h
      rcases hasSubL_comma_split hg.1 h with hc | hrest
      · exact ⟨c0, List.mem_cons_self _ _, hc⟩
      · obtain ⟨c, cs, hd⟩ := List.exists_cons_of_ne_nil hne
        rw [hd] at hrest
        simp only [hasSubL, Bool.or_eq_true] at hrest
        have hJ : hasSubL (sepJoinS (x :: xs)).data v.data = true := by
          rcases hrest with hsw | ht
          · simp only [startsW, Bool.and_eq_true, beq_iff_eq] at hsw
            refine absurd ?_ (fun hh => (hg.2 hh).elim)
            rw [hd, ← hsw.1]
            rfl
          · rw [hd]; exact ht
        obtain ⟨c1, hcmem, hcc⟩ := ih hJ
        exact ⟨c1, List.mem_cons_of_mem _ hcmem, hcc⟩

/-! ### Iterated merge of labels at one key -/

/-- Two labels are compatible when they are equal or neither contains the
other; distinct Colombia labels are pairwise compatible. -/
def compatS (a b : String) : Prop :=
  a = b ∨ (sContains a b = false ∧ sContains b a = false)

instance (a b : String) : Decidable (compatS a b) := by
  unfold compatS; infer_instance

theorem compatS_symm {a b : String} (h : compatS a b) : compatS b a := by
  rcases h with rfl | ⟨h1, h2⟩
  · exact Or.inl rfl
  · exact Or.inr ⟨h2, h1⟩

/-- The entry value obtained by merging the names `vs` (in insertion order)
into a starting entry. -/
def mergeSeq (o : Option String) (vs : List String) : Option String :=
  vs.foldl (fun acc v =>
    match acc with
    | none => some v
    | some e => some (mergeVal e v)) o

theorem mergeSeq_append (o : Option String) (vs1 vs2 : List String) :
    mergeSeq o (vs1 ++ vs2) = mergeSeq (mergeSeq o vs1) vs2 :=
  List.foldl_append _ _ _ _

theorem mergeVal_of_contains {e v : String} (h : sContains e v = true) :
    mergeVal e v = e := by
  simp [mergeVal, h]

theorem sContains_refl (s : String) : sContains s s = true := hasSubL_self s.data

theorem sContains_trans {a b c : String} (h1 : sContains a b = true)
    (h2 : sContains b c = true) : sContains a c = true :=
  hasSubL_trans h1 h2

theorem sContains_of_data_nil {s v : String} (hv : v.data = []) :
    sContains s v = true := by
  unfold sContains
  rw [hv]
  exact hasSubL_nil_needle s.data

/-- Merging pairwise-compatible well-behaved labels keeps every earlier
label as a component of the join. -/
theorem mergeSeq_slice (vs : List String) :
    ∀ (comps : List String) (e : String),
      e = sepJoinS comps → comps ≠ [] →
      (∀ v ∈ vs, ∀ c ∈ comps, compatS v c) →
      vs.Pairwise compatS →
      (∀ v ∈ vs, goodLabel v.data) →
      ∃ comps' e', mergeSeq (some e) vs = some e' ∧ e' = sepJoinS comps' ∧
        comps' ≠ [] ∧ (∀ c ∈ comps, c ∈ comps') ∧ (∀ v ∈ vs, v ∈ comps') := by
  induction vs with
  | nil =>
    intro comps e he hne _ _ _
    exact ⟨comps, e, rfl, he, hne, fun c hc => hc, by simp⟩
  | cons v vs' ih =>
    intro comps e he hne hcompat hpair hgood
    by_cases hvc : v ∈ comps
    · -- the new name equals an existing component: the old entry wins
      have hcont : sContains e v = true := he ▸ sContains_sepJoin_mem hvc
      have hstep : mergeSeq (some e) (v :: vs') = mergeSeq (some e) vs' := by
        simp [mergeSeq, mergeVal_of_contains hcont]
      rw [hstep]
      obtain ⟨comps', e', h1, h2, h3, h4, h5⟩ := ih comps e he hne
        (fun w hw c hc => hcompat w (List.mem_cons_of_mem v hw) c hc)
        (List.Pairwise.of_cons hpair)
        (fun w hw => hgood w (List.mem_cons_of_mem v hw))
      refine ⟨comps', e', h1, h2, h3, h4, fun w hw => ?_⟩
      rcases List.mem_cons.mp hw with rfl | hw'
      · exact h4 w hvc
      · exact h5 w hw'
    · -- a genuinely new name: comma-joined in front
      have hvne : v.data ≠ [] := by
        intro hnil
        obtain ⟨c0, hc0⟩ := List.exists_mem_of_ne_nil comps hne
        rcases hcompat v (List.mem_cons_self v vs') c0 hc0 with rfl | ⟨_, h2⟩
        · exact hvc hc0
        · rw [sContains_of_data_nil hnil] at h2
          simp at h2
      have hgv : goodLabel v.data := hgood v (List.mem_cons_self v vs')
      have hnc1 : sContains e v = false := by
        by_contra hcc
        have hcc' : sContains e v = true := by
          revert hcc
          cases sContains e v <;> simp
        obtain ⟨c, hcm, hsub⟩ := sContains_sepJoin_split hgv hvne (he ▸ hcc')
        rcases hcompat v (List.mem_cons_self v vs') c hcm with rfl | ⟨_, h2⟩
        · exact hvc hcm
        · rw [hsub] at h2
          simp at h2
      have hnc2 : sContains v e = false := by
        by_contra hcc
        have hcc' : sContains v e = true := by
          revert hcc
          cases sContains v e <;> simp
        obtain ⟨c0, hc0⟩ := List.exists_mem_of_ne_nil comps hne
        have hec : sContains e c0 = true := he ▸ sContains_sepJoin_mem hc0
        have : sContains v c0 = true := sContains_trans hcc' hec
        rcases hcompat v (List.mem_cons_self v vs') c0 hc0 with rfl | ⟨h1, _⟩
        · exact hvc hc0
        · rw [this] at h1
          simp at h1
      have hmerge : mergeVal e v = v ++ ", " ++ e := by
        simp [mergeVal, hnc1, hnc2]
      have hjoin : v ++ ", " ++ e = sepJoinS (v :: comps) := by
        obtain ⟨c0, cs, rfl⟩ := List.exists_cons_of_ne_nil hne
        rw [he]
        rfl
      have hstep : mergeSeq (some e) (v :: vs') = mergeSeq (some (v ++ ", " ++ e)) vs' := by
        simp [mergeSeq, hmerge]
      rw [hstep]
      obtain ⟨comps', e', h1, h2, h3, h4, h5⟩ := ih (v :: comps) (v ++ ", " ++ e) hjoin
        (by simp)
        (fun w hw c hc => by
          rcases List.mem_cons.mp hc with rfl | hc'
          · exact compatS_symm (List.rel_of_pairwise_cons hpair hw)
          · exact hcompat w (List.mem_cons_of_mem v hw) c hc')
        (List.Pairwise.of_cons hpair)
        (fun w hw => hgood w (List.mem_cons_of_mem v hw))
      refine ⟨comps', e', h1, h2, h3, fun c hc => h4 c (List.mem_cons_of_mem v hc),
        fun w hw => ?_⟩
      rcases List.mem_cons.mp hw with rfl | hw'
      · exact h4 w (List.mem_cons_self w comps)
      · exact h5 w hw'

/-- Merging a nonempty pairwise-compatible list of well-behaved labels
produces an entry containing each of them as a substring. -/
theorem mergeSeq_covers {vs : List String} (hpair : vs.Pairwise compatS)
    (hgood : ∀ v ∈ vs, goodLabel v.data) (hne : vs ≠ []) :
    ∃ e, mergeSeq none vs = some e ∧ ∀ v ∈ vs, sContains e v = true := by
  obtain ⟨v0, rest, rfl⟩ := List.exists_cons_of_ne_nil hne
  have hstep : mergeSeq none (v0 :: rest) = mergeSeq (some v0) rest := rfl
  obtain ⟨comps', e', h1, h2, h3, h4, h5⟩ := mergeSeq_slice rest [v0] v0 rfl
    (by simp)
    (fun w hw c hc => by
      rcases List.mem_cons.mp hc with rfl | hc'
      · exact compatS_symm (List.rel_of_pairwise_cons hpair hw)
      · simp at hc')
    (List.Pairwise.of_cons hpair)
    (fun w hw => hgood w (List.mem_cons_of_mem v0 hw))
  refine ⟨e', by rw [hstep, h1], fun v hv => ?_⟩
  rcases List.mem_cons.mp hv with rfl | hv'
  · exact h2 ▸ sContains_sepJoin_mem (h4 v (List.mem_cons_self v []))
  · exact h2 ▸ sContains_sepJoin_mem (h5 v hv')

/-! ### Mapping lemmas -/

/-- The names inserted at key `k` by an insertion list, in order. -/
def valuesAt (L : List (Date × String)) (k : Date) : List String :=
  (L.filter (fun kv => decide (kv.1 = k))).map Prod.snd

theorem valuesAt_nil (k : Date) : valuesAt [] k = [] := rfl

theorem valuesAt_cons (kv : Date × String) (L : List (Date × String)) (k : Date) :
    valuesAt (kv :: L) k
      = if kv.1 = k then kv.2 :: valuesAt L k else valuesAt L k := by
  by_cases h : kv.1 = k <;> simp [valuesAt, List.filter_cons, h]

theorem valuesAt_append (L1 L2 : List (Date × String)) (k : Date) :
    valuesAt (L1 ++ L2) k = valuesAt L1 k ++ valuesAt L2 k := by
  simp [valuesAt, List.filter_append]

theorem valuesAt_eq_nil {L : List (Date × String)} {k : Date}
    (h : ∀ kv ∈ L, kv.1 ≠ k) : valuesAt L k = [] := by
  induction L with
  | nil => rfl
  | cons kv t ih =>
    rw [valuesAt_cons, if_neg (h kv (List.mem_cons_self kv t))]
    exact ih (fun x hx => h x (List.mem_cons_of_mem kv hx))

theorem mem_valuesAt {L : List (Date × String)} {kv : Date × String} (h : kv ∈ L) :
    kv.2 ∈ valuesAt L kv.1 := by
  unfold valuesAt
  exact List.mem_map_of_mem Prod.snd (List.mem_filter.mpr ⟨h, by simp⟩)

theorem valuesAt_sublist (L : List (Date × String)) (k : Date) :
    (valuesAt L k).Sublist (L.map Prod.snd) :=
  List.Sublist.map Prod.snd (List.filter_sublist L)

theorem dLookup_dSetRaw_self (D : Dict) (k : Date) (v : String) :
    dLookup (dSetRaw D k v) k = some v := by
  induction D with
  | nil => simp [dSetRaw, dLookup]
  | cons kv t ih =>
    obtain ⟨k1, v1⟩ := kv
    by_cases h : k = k1
    · simp [dSetRaw, h, dLookup]
    · simp [dSetRaw, dLookup, h, Ne.symm h, ih]

theorem dLookup_dSetRaw_ne (D : Dict) {k k' : Date} (v : String) (h : k' ≠ k) :
    dLookup (dSetRaw D k v) k' = dLookup D k' := by
  induction D with
  | nil => simp [dSetRaw, dLookup, h]
  | cons kv t ih =>
    obtain ⟨k1, v1⟩ := kv
    by_cases h1 : k = k1
    · subst h1
      simp [dSetRaw, dLookup, h]
    · by_cases h2 : k' = k1 <;> simp [dSetRaw, dLookup, h1, h2, ih]

theorem dSetRaw_self_eq {D : Dict} {k : Date} {v : String}
    (h : dLookup D k = some v) : dSetRaw D k v = D := by
  induction D with
  | nil => simp [dLookup] at h
  | cons kv t ih =>
    obtain ⟨k1, v1⟩ := kv
    by_cases h1 : k = k1
    · subst h1
      simp [dLookup] at h
      simp [dSetRaw, h]
    · rw [dLookup, if_neg h1] at h
      simp [dSetRaw, h1, ih h]

theorem dLookup_dSet_self (D : Dict) (k : Date) (v : String) :
    dLookup (dSet D k v) k = mergeSeq (dLookup D k) [v] := by
  unfold dSet
  cases h : dLookup D k with
  | none => simp [mergeSeq, dLookup_dSetRaw_self]
  | some old => simp [mergeSeq, dLookup_dSetRaw_self]

theorem dLookup_dSet_ne (D : Dict) {k k' : Date} (v : String) (h : k' ≠ k) :
    dLookup (dSet D k v) k' = dLookup D k' := by
  unfold dSet
  cases dLookup D k <;> exact dLookup_dSetRaw_ne D _ h

theorem dFold_cons (D : Dict) (kv : Date × String) (t : List (Date × String)) :
    dFold D (kv :: t) = dFold (dSet D kv.1 kv.2) t := rfl

theorem dFold_append (D : Dict) (L1 L2 : List (Date × String)) :
    dFold D (L1 ++ L2) = dFold (dFold D L1) L2 :=
  List.foldl_append _ _ _ _

/-- Fold-lookup characterisation: the entry at `k` after inserting a list
is the iterated merge of the names inserted at `k`. -/
theorem dLookup_dFold (L : List (Date × String)) :
    ∀ (D : Dict) (k : Date),
      dLookup (dFold D L) k = mergeSeq (dLookup D k) (valuesAt L k) := by
  induction L with
  | nil => intro D k; rfl
  | cons kv t ih =>
    intro D k
    rw [dFold_cons, ih, valuesAt_cons]
    by_cases h : kv.1 = k
    · subst h
      rw [if_pos rfl, dLookup_dSet_self]
      rw [show (kv.2 :: valuesAt t kv.1) = [kv.2] ++ valuesAt t kv.1 from rfl,
        mergeSeq_append]
    · rw [if_neg h, dLookup_dSet_ne D kv.2 (fun he => h he.symm)]

theorem mergeSeq_some (vs : List String) :
    ∀ e : String, ∃ e', mergeSeq (some e) vs = some e' := by
  induction vs with
  | nil => exact fun e => ⟨e, rfl⟩
  | cons v t ih =>
    intro e
    obtain ⟨e', he'⟩ := ih (mergeVal e v)
    exact ⟨e', he'⟩

theorem mergeSeq_none_ne {vs : List String} (h : vs ≠ []) :
    ∃ e, mergeSeq none vs = some e := by
  obtain ⟨v, t, rfl⟩ := List.exists_cons_of_ne_nil h
  exact mergeSeq_some t v

theorem dSet_covered {D : Dict} {k : Date} {v : String}
    (h : ∃ e, dLookup D k = some e ∧ sContains e v = true) : dSet D k v = D := by
  obtain ⟨e, he, hc⟩ := h
  unfold dSet
  rw [he]
  show dSetRaw D k (mergeVal e v) = D
  rw [mergeVal_of_contains hc]
  exact dSetRaw_self_eq he

theorem dFold_covered {L : List (Date × String)} :
    ∀ {D : Dict},
      (∀ kv ∈ L, ∃ e, dLookup D kv.1 = some e ∧ sContains e kv.2 = true) →
      dFold D L = D := by
  induction L with
  | nil => intro D _; rfl
  | cons kv t ih =>
    intro D h
    rw [dFold_cons, dSet_covered (h kv (List.mem_cons_self kv t))]
    exact ih (fun x hx => h x (List.mem_cons_of_mem kv hx))

/-- Re-inserting an insertion list whose names are pairwise compatible and
well-behaved, over a base with disjoint keys, is a no-op. -/
theorem dFold_refold {D0 : Dict} {L : List (Date × String)}
    (hD : ∀ kv ∈ L, dLookup D0 kv.1 = none)
    (hpair : (L.map Prod.snd).Pairwise compatS)
    (hgood : ∀ v ∈ L.map Prod.snd, goodLabel v.data) :
    dFold (dFold D0 L) L = dFold D0 L := by
  apply dFold_covered
  intro kv hkv
  rw [dLookup_dFold, hD kv hkv]
  have hmem : kv.2 ∈ valuesAt L kv.1 := mem_valuesAt hkv
  have hne : valuesAt L kv.1 ≠ [] := fun h => by simp [h] at hmem
  have hsub := valuesAt_sublist L kv.1
  obtain ⟨e, he, hcov⟩ := mergeSeq_covers (hpair.sublist hsub)
    (fun v hv => hgood v (hsub.mem hv)) hne
  exact ⟨e, he, hcov kv.2 hmem⟩

theorem dLookup_mem {D : Dict} {k : Date} {v : String}
    (h : dLookup D k = some v) : (k, v) ∈ D := by
  induction D with
  | nil => simp [dLookup] at h
  | cons kv t ih =>
    obtain ⟨k1, v1⟩ := kv
    by_cases h1 : k = k1
    · subst h1
      rw [dLookup, if_pos rfl] at h
      injection h with h
      simp [h]
    · rw [dLookup, if_neg h1] at h
      exact List.mem_cons_of_mem _ (ih h)

theorem dLookup_none_of_keys {D : Dict} {k : Date}
    (h : ∀ kv ∈ D, kv.1 ≠ k) : dLookup D k = none := by
  induction D with
  | nil => rfl
  | cons kv t ih =>
    obtain ⟨k1, v1⟩ := kv
    rw [dLookup, if_neg (fun he => h (k1, v1) (List.mem_cons_self _ _) he.symm)]
    exact ih (fun x hx => h x (List.mem_cons_of_mem _ hx))

theorem dLookup_filter_none {D : Dict} {k : Date} (p : Date × String → Bool)
    (h : dLookup D k = none) : dLookup (D.filter p) k = none := by
  apply dLookup_none_of_keys
  intro kv hkv he
  have hmem : kv ∈ D := (List.mem_filter.mp hkv).1
  have : dLookup D k ≠ none := by
    subst he
    induction D with
    | nil => simp at hmem
    | cons kv' t ih =>
      rcases List.mem_cons.mp hmem with rfl | hmem'
      · simp [dLookup]
      · obtain ⟨k1, v1⟩ := kv'
        by_cases h1 : kv.1 = k1 <;> simp_all [dLookup]
  exact this h

/-- Lookup through a value filter (Python's delete loop) on a mapping with
unique keys. -/
theorem dLookup_filter {D : Dict} (p : Date × String → Bool)
    (hnd : dKeysNodup D) (k : Date) :
    dLookup (D.filter p) k
      = (dLookup D k).bind (fun v => if p (k, v) then some v else none) := by
  induction D with
  | nil => rfl
  | cons kv t ih =>
    obtain ⟨k1, v1⟩ := kv
    unfold dKeysNodup at hnd
    rw [List.map_cons, List.nodup_cons] at hnd
    by_cases h1 : k = k1
    · subst h1
      rw [dLookup, if_pos rfl]
      by_cases hp : p (k, v1)
      · simp [List.filter_cons, hp, dLookup]
      · have hnone : dLookup t k = none := by
          apply dLookup_none_of_keys
          intro kv hkv he
          have hm : kv.1 ∈ t.map Prod.fst := List.mem_map_of_mem Prod.fst hkv
          rw [he] at hm
          exact hnd.1 hm
        simp only [List.filter_cons]
        rw [if_neg (by simpa using hp)]
        rw [dLookup_filter_none p hnone]
        simp [hp]
    · rw [dLookup, if_neg h1]
      rw [← ih hnd.2]
      simp only [List.filter_cons]
      by_cases hp : p (k1, v1)
      · rw [if_pos (by simpa using hp), dLookup, if_neg h1]
      · rw [if_neg (by simpa using hp)]

theorem dSetRaw_ne_nil (D : Dict) (k : Date) (v : String) : dSetRaw D k v ≠ [] := by
  cases D with
  | nil => simp [dSetRaw]
  | cons kv t =>
    obtain ⟨k1, v1⟩ := kv
    by_cases h : k = k1 <;> simp [dSetRaw, h]

theorem dSet_ne_nil (D : Dict) (k : Date) (v : String) : dSet D k v ≠ [] := by
  unfold dSet
  cases dLookup D k <;> exact dSetRaw_ne_nil D k _

theorem dFold_ne_nil {L : List (Date × String)} (D : Dict) (h : L ≠ []) :
    dFold D L ≠ [] := by
  induction L generalizing D with
  | nil => exact absurd rfl h
  | cons kv t ih =>
    rw [dFold_cons]
    cases t with
    | nil => exact dSet_ne_nil D kv.1 kv.2
    | cons x xs => exact ih _ (by simp)

theorem dFold_ne_nil_of_base {L : List (Date × String)} {D : Dict} (h : D ≠ []) :
    dFold D L ≠ [] := by
  induction L generalizing D with
  | nil => exact h
  | cons kv t ih => exact ih (dSet_ne_nil D kv.1 kv.2)

/-! ### Date arithmetic lemmas -/

theorem monthLen_le : ∀ (l : Bool), ∀ m < 13, monthLen l m ≤ 31 := by decide

set_option maxRecDepth 8192 in
theorem mdOfDoy_spec : ∀ (l : Bool), ∀ k < 367, 1 ≤ k →
    k ≤ 365 + (if l then 1 else 0) →
    daysBeforeMonth l (mdOfDoyGo l 11 1 k).1 + (mdOfDoyGo l 11 1 k).2 = k ∧
    1 ≤ (mdOfDoyGo l 11 1 k).1 ∧ (mdOfDoyGo l 11 1 k).1 ≤ 12 ∧
    1 ≤ (mdOfDoyGo l 11 1 k).2 ∧
    (mdOfDoyGo l 11 1 k).2 ≤ monthLen l (mdOfDoyGo l 11 1 k).1 := by decide

set_option maxRecDepth 8192 in
set_option synthInstance.maxSize 1024 in
theorem mdInv_spec : ∀ (l : Bool), ∀ m < 13, ∀ d < 32, 1 ≤ m → 1 ≤ d →
    d ≤ monthLen l m → mdOfDoyGo l 11 1 (daysBeforeMonth l m + d) = (m, d) := by decide

set_option maxRecDepth 8192 in
set_option synthInstance.maxSize 1024 in
theorem doy_in_year : ∀ (l : Bool), ∀ m < 13, ∀ d < 32, 1 ≤ m → 1 ≤ d →
    d ≤ monthLen l m →
    1 ≤ daysBeforeMonth l m + d ∧
    daysBeforeMonth l m + d ≤ 365 + (if l then 1 else 0) := by decide

theorem yearLen_eq (y : ℕ) : yearLen y = 365 + (if isLeap y then 1 else 0) := by
  unfold yearLen
  cases isLeap y <;> simp

theorem ordOf_mk (y m d : ℕ) :
    ordOf ⟨y, m, d⟩ = daysBeforeYear y + doyOf ⟨y, m, d⟩ := rfl

theorem doyOf_mk (y m d : ℕ) :
    doyOf ⟨y, m, d⟩ = daysBeforeMonth (isLeap y) m + d := rfl

theorem validDate_mk {y m d : ℕ} (h1 : 1 ≤ y) (h2 : 1 ≤ m) (h3 : m ≤ 12)
    (h4 : 1 ≤ d) (h5 : d ≤ monthLen (isLeap y) m) : ValidDate ⟨y, m, d⟩ :=
  ⟨h1, h2, h3, h4, h5⟩

theorem doyOf_bounds {dt : Date} (h : ValidDate dt) :
    1 ≤ doyOf dt ∧ doyOf dt ≤ yearLen dt.y := by
  obtain ⟨h1, h2, h3, h4, h5⟩ := h
  have hd : dt.d < 32 := by
    have := monthLen_le (isLeap dt.y) dt.m (by omega)
    omega
  have := doy_in_year (isLeap dt.y) dt.m (by omega) dt.d hd h2 h4 h5
  rw [yearLen_eq]
  exact ⟨this.1, this.2⟩

theorem dateOfDoy_spec {y k : ℕ} (h1 : 1 ≤ k) (h2 : k ≤ yearLen y) :
    (dateOfDoy y k).y = y ∧ doyOf (dateOfDoy y k) = k ∧
    1 ≤ (dateOfDoy y k).m ∧ (dateOfDoy y k).m ≤ 12 ∧
    1 ≤ (dateOfDoy y k).d ∧
    (dateOfDoy y k).d ≤ monthLen (isLeap y) (dateOfDoy y k).m := by
  rw [yearLen_eq] at h2
  have hk : k < 367 := by
    by_cases hl : isLeap y <;> simp [hl] at h2 <;> omega
  have := mdOfDoy_spec (isLeap y) k hk h1 h2
  unfold dateOfDoy doyOf
  exact ⟨rfl, this.1, this.2.1, this.2.2.1, this.2.2.2.1, this.2.2.2.2⟩

theorem dateOfDoy_valid {y k : ℕ} (hy : 1 ≤ y) (h1 : 1 ≤ k) (h2 : k ≤ yearLen y) :
    ValidDate (dateOfDoy y k) := by
  have h := dateOfDoy_spec h1 h2
  exact ⟨by rw [h.1]; exact hy, h.2.2.1, h.2.2.2.1, h.2.2.2.2.1, by
    rw [h.1]; exact h.2.2.2.2.2⟩

theorem dateOfDoy_doyOf {dt : Date} (h : ValidDate dt) :
    dateOfDoy dt.y (doyOf dt) = dt := by
  obtain ⟨y, m, d⟩ := dt
  obtain ⟨h1, h2, h3, h4, h5⟩ := h
  simp only at h2 h3 h4 h5
  have hd : d < 32 := by
    have := monthLen_le (isLeap y) m (by omega)
    omega
  have hm : mdOfDoyGo (isLeap y) 11 1 (daysBeforeMonth (isLeap y) m + d) = (m, d) :=
    mdInv_spec (isLeap y) m (by omega) d hd h2 h4 h5
  unfold dateOfDoy doyOf
  simp only
  rw [hm]

theorem dby_le_one {y : ℕ} (h : y ≤ 1) : daysBeforeYear y = 0 := by
  interval_cases y <;> rfl

theorem isLeap_iff (y : ℕ) :
    isLeap y = true ↔ (y % 4 = 0 ∧ (¬ y % 100 = 0 ∨ y % 400 = 0)) := by
  simp [isLeap]

set_option maxHeartbeats 1000000 in
theorem dby_step {y : ℕ} (hy : 1 ≤ y) :
    daysBeforeYear (y + 1) = daysBeforeYear y + yearLen y := by
  rw [yearLen_eq]
  unfold daysBeforeYear
  by_cases h : isLeap y = true
  · rw [if_pos h]
    have := (isLeap_iff y).mp h
    omega
  · rw [if_neg h]
    have hnot : ¬ (y % 4 = 0 ∧ (¬ y % 100 = 0 ∨ y % 400 = 0)) :=
      fun hh => h ((isLeap_iff y).mpr hh)
    omega

theorem dby_mono {a b : ℕ} (ha : 1 ≤ a) (hab : a ≤ b) :
    daysBeforeYear a ≤ daysBeforeYear b := by
  induction hab with
  | refl => exact le_refl _
  | step hb ih =>
    rename_i b'
    have hb1 : 1 ≤ b' := le_trans ha hb
    rw [dby_step hb1]
    omega

theorem addDays_spec : ∀ (n : ℕ) (dt : Date), ValidDate dt →
    ValidDate (addDays dt n) ∧ ordOf (addDays dt n) = ordOf dt + n := by
  intro n
  induction n using Nat.strong_induction_on with
  | _ n ih =>
    intro dt hv
    have hdoy := doyOf_bounds hv
    rw [addDays_eq]
    by_cases h1 : doyOf dt + n ≤ yearLen dt.y
    · rw [if_pos h1]
      have hs := dateOfDoy_spec (k := doyOf dt + n) (by omega) h1
      refine ⟨dateOfDoy_valid hv.1 (by omega) h1, ?_⟩
      unfold ordOf
      rw [hs.1, hs.2.1]
      omega
    · rw [if_neg h1, if_pos ⟨hdoy.1, hdoy.2⟩]
      have hvy : ValidDate ⟨dt.y + 1, 1, 1⟩ :=
        validDate_mk (by omega) (by omega) (by omega) (by omega)
          (by simp [monthLen])
      have hlt : doyOf dt + n - yearLen dt.y - 1 < n := by omega
      obtain ⟨hval, hord⟩ := ih _ hlt ⟨dt.y + 1, 1, 1⟩ hvy
      refine ⟨hval, ?_⟩
      rw [hord]
      have hdo : doyOf (⟨dt.y + 1, 1, 1⟩ : Date) = 1 := by
        rw [doyOf_mk]
        simp [daysBeforeMonth, monthCum]
      rw [ordOf_mk, hdo, dby_step hv.1]
      unfold ordOf
      omega

theorem subDays_spec : ∀ (n : ℕ) (dt : Date), ValidDate dt → n < ordOf dt →
    ValidDate (subDays dt n) ∧ ordOf (subDays dt n) = ordOf dt - n := by
  intro n
  induction n using Nat.strong_induction_on with
  | _ n ih =>
    intro dt hv hn
    have hdoy := doyOf_bounds hv
    rw [subDays_eq]
    by_cases h1 : n < doyOf dt
    · rw [if_pos h1]
      have hs := dateOfDoy_spec (y := dt.y) (k := doyOf dt - n) (by omega) (by omega)
      refine ⟨dateOfDoy_valid (y := dt.y) hv.1 (by omega) (by omega), ?_⟩
      unfold ordOf
      rw [hs.1, hs.2.1]
      omega
    · have hy2 : 2 ≤ dt.y := by
        by_contra hc
        have h0 : daysBeforeYear dt.y = 0 := dby_le_one (by omega)
        unfold ordOf at hn
        omega
      rw [if_neg h1, if_pos ⟨hy2, hdoy.1⟩]
      have hvy : ValidDate ⟨dt.y - 1, 12, 31⟩ :=
        validDate_mk (by omega) (by omega) (by omega) (by omega)
          (by simp [monthLen])
      have hdo : doyOf (⟨dt.y - 1, 12, 31⟩ : Date) = yearLen (dt.y - 1) := by
        rw [doyOf_mk, yearLen_eq]
        simp only [daysBeforeMonth, monthCum]
        cases isLeap (dt.y - 1) <;> simp
      have hdby : ordOf (⟨dt.y - 1, 12, 31⟩ : Date) = daysBeforeYear dt.y := by
        rw [ordOf_mk, hdo]
        have hstep := dby_step (y := dt.y - 1) (by omega)
        have hyy : dt.y - 1 + 1 = dt.y := by omega
        rw [hyy] at hstep
        omega
      have hlt : n - doyOf dt < n := by omega
      have hord2 : n - doyOf dt < ordOf ⟨dt.y - 1, 12, 31⟩ := by
        rw [hdby]
        unfold ordOf at hn
        omega
      obtain ⟨hval, hord⟩ := ih _ hlt ⟨dt.y - 1, 12, 31⟩ hvy hord2
      refine ⟨hval, ?_⟩
      rw [hord, hdby]
      unfold ordOf at hn ⊢
      omega

theorem ordOf_lt_of_year_lt {a b : Date} (ha : ValidDate a) (hb : ValidDate b)
    (h : a.y < b.y) : ordOf a < ordOf b := by
  have h1 := doyOf_bounds ha
  have h2 := doyOf_bounds hb
  have h3 : daysBeforeYear (a.y + 1) = daysBeforeYear a.y + yearLen a.y :=
    dby_step ha.1
  have h4 : daysBeforeYear (a.y + 1) ≤ daysBeforeYear b.y :=
    dby_mono (by omega) (by omega)
  unfold ordOf
  omega

theorem ordOf_inj {a b : Date} (ha : ValidDate a) (hb : ValidDate b)
    (h : ordOf a = ordOf b) : a = b := by
  have hy : a.y = b.y := by
    rcases lt_trichotomy a.y b.y with hlt | heq | hgt
    · exact absurd h (by have := ordOf_lt_of_year_lt ha hb hlt; omega)
    · exact heq
    · exact absurd h (by have := ordOf_lt_of_year_lt hb ha hgt; omega)
  have hdoy : doyOf a = doyOf b := by
    unfold ordOf at h
    rw [hy] at h
    omega
  have := dateOfDoy_doyOf ha
  rw [hy, hdoy, dateOfDoy_doyOf hb] at this
  exact this.symm

/-- Adding days inside the same year: only day-of-year facts, no validity
needed for the year component. -/
theorem addDays_inYear {dt : Date} {n : ℕ} (h1 : 1 ≤ doyOf dt)
    (h2 : doyOf dt + n ≤ yearLen dt.y) :
    (addDays dt n).y = dt.y ∧ doyOf (addDays dt n) = doyOf dt + n := by
  rw [addDays_eq, if_pos h2]
  have hs := dateOfDoy_spec (k := doyOf dt + n) (by omega) h2
  exact ⟨hs.1, hs.2.1⟩

theorem subDays_inYear {dt : Date} {n : ℕ} (h1 : n < doyOf dt)
    (h2 : doyOf dt ≤ yearLen dt.y) :
    (subDays dt n).y = dt.y ∧ doyOf (subDays dt n) = doyOf dt - n := by
  rw [subDays_eq, if_pos h1]
  have hs := dateOfDoy_spec (y := dt.y) (k := doyOf dt - n) (by omega) (by omega)
  exact ⟨hs.1, hs.2.1⟩

theorem weekday_addDays {dt : Date} {n : ℕ} (hv : ValidDate dt) :
    weekday (addDays dt n) = (weekday dt + n) % 7 := by
  unfold weekday
  rw [(addDays_spec n dt hv).2]
  omega

/-! ### Easter bounds -/

theorem eG_bounds (y : ℤ) : 0 ≤ eG y ∧ eG y < 19 :=
  ⟨Int.emod_nonneg y (by norm_num), Int.emod_lt_of_pos y (by norm_num)⟩

theorem eH_bounds (y : ℤ) : 0 ≤ eH y ∧ eH y < 30 :=
  ⟨Int.emod_nonneg _ (by norm_num), Int.emod_lt_of_pos _ (by norm_num)⟩

theorem eJ_bounds (y : ℤ) : 0 ≤ eJ y ∧ eJ y < 7 :=
  ⟨Int.emod_nonneg _ (by norm_num), Int.emod_lt_of_pos _ (by norm_num)⟩

theorem eI_bounds (y : ℤ) : 0 ≤ eI y ∧ eI y ≤ 28 := by
  obtain ⟨h0, h30⟩ := eH_bounds y
  obtain ⟨g0, g19⟩ := eG_bounds y
  unfold eI
  by_cases h : eH y ≤ 27
  · have hd : eH y / 28 = 0 := by omega
    rw [hd]
    omega
  · have h28 : eH y = 28 ∨ eH y = 29 := by omega
    rcases h28 with h28 | h29
    · rw [h28]
      have e2 : (29 : ℤ) / (28 + 1) = 1 := by decide
      rw [e2]
      omega
    · rw [h29]
      have e2 : (29 : ℤ) / (29 + 1) = 0 := by decide
      rw [e2]
      omega

theorem eP_bounds (y : ℤ) : -6 ≤ eP y ∧ eP y ≤ 28 := by
  obtain ⟨hi0, hi28⟩ := eI_bounds y
  obtain ⟨hj0, hj7⟩ := eJ_bounds y
  unfold eP
  omega

theorem easterDate_y (year : ℕ) : (easterDate year).y = year := rfl

theorem easterDate_m (year : ℕ) :
    (easterDate year).m = (3 + (eP (year : ℤ) + 26) / 30).toNat := rfl

theorem easterDate_d (year : ℕ) :
    (easterDate year).d
      = (1 + (eP (year : ℤ) + 27 + (eP (year : ℤ) + 6) / 40) % 31).toNat := rfl

theorem easterDate_md (year : ℕ) :
    ((easterDate year).m = 3 ∧ 22 ≤ (easterDate year).d ∧ (easterDate year).d ≤ 31) ∨
    ((easterDate year).m = 4 ∧ 1 ≤ (easterDate year).d ∧ (easterDate year).d ≤ 25) := by
  obtain ⟨hp1, hp2⟩ := eP_bounds (year : ℤ)
  rw [easterDate_m, easterDate_d]
  by_cases h : eP (year : ℤ) ≤ 3
  · left
    omega
  · right
    omega

theorem easterDate_valid {year : ℕ} (hy : 1 ≤ year) : ValidDate (easterDate year) := by
  rcases easterDate_md year with ⟨hm, hd1, hd2⟩ | ⟨hm, hd1, hd2⟩ <;>
    refine ⟨by rw [easterDate_y]; exact hy, by omega, by omega, by omega, ?_⟩ <;>
    rw [easterDate_y, hm] <;>
    simp [monthLen] <;> omega

theorem easterDate_doy (year : ℕ) :
    81 ≤ doyOf (easterDate year) ∧ doyOf (easterDate year) ≤ 116 := by
  have hdoy : doyOf (easterDate year)
      = daysBeforeMonth (isLeap year) (easterDate year).m + (easterDate year).d := rfl
  rw [hdoy]
  rcases easterDate_md year with ⟨hm, hd1, hd2⟩ | ⟨hm, hd1, hd2⟩ <;>
    rw [hm] <;>
    cases isLeap year <;>
    simp [daysBeforeMonth, monthCum] <;> omega

/-! ### Colombia rule-table geometry -/

/-- One when the year is leap, else zero. -/
def lN (y : ℕ) : ℕ := if isLeap y then 1 else 0

theorem lN_le (y : ℕ) : lN y ≤ 1 := by
  unfold lN
  split <;> omega

theorem yearLen_lN (y : ℕ) : yearLen y = 365 + lN y := by
  rw [yearLen_eq]
  unfold lN
  rfl

theorem doy_jan (y d : ℕ) : doyOf ⟨y, 1, d⟩ = d := by
  rw [doyOf_mk]
  simp [daysBeforeMonth, monthCum]

theorem doy_mar (y d : ℕ) : doyOf ⟨y, 3, d⟩ = 59 + lN y + d := by
  rw [doyOf_mk]
  unfold lN
  cases isLeap y <;> simp [daysBeforeMonth, monthCum] <;> omega

theorem doy_may (y d : ℕ) : doyOf ⟨y, 5, d⟩ = 120 + lN y + d := by
  rw [doyOf_mk]
  unfold lN
  cases isLeap y <;> simp [daysBeforeMonth, monthCum] <;> omega

theorem doy_jun (y d : ℕ) : doyOf ⟨y, 6, d⟩ = 151 + lN y + d := by
  rw [doyOf_mk]
  unfold lN
  cases isLeap y <;> simp [daysBeforeMonth, monthCum] <;> omega

theorem doy_jul (y d : ℕ) : doyOf ⟨y, 7, d⟩ = 181 + lN y + d := by
  rw [doyOf_mk]
  unfold lN
  cases isLeap y <;> simp [daysBeforeMonth, monthCum] <;> omega

theorem doy_aug (y d : ℕ) : doyOf ⟨y, 8, d⟩ = 212 + lN y + d := by
  rw [doyOf_mk]
  unfold lN
  cases isLeap y <;> simp [daysBeforeMonth, monthCum] <;> omega

theorem doy_oct (y d : ℕ) : doyOf ⟨y, 10, d⟩ = 273 + lN y + d := by
  rw [doyOf_mk]
  unfold lN
  cases isLeap y <;> simp [daysBeforeMonth, monthCum] <;> omega

theorem doy_nov (y d : ℕ) : doyOf ⟨y, 11, d⟩ = 304 + lN y + d := by
  rw [doyOf_mk]
  unfold lN
  cases isLeap y <;> simp [daysBeforeMonth, monthCum] <;> omega

theorem doy_dec (y d : ℕ) : doyOf ⟨y, 12, d⟩ = 334 + lN y + d := by
  rw [doyOf_mk]
  unfold lN
  cases isLeap y <;> simp [daysBeforeMonth, monthCum] <;> omega

theorem ne_of_doy {a b : Date} (h : doyOf a ≠ doyOf b) : a ≠ b :=
  fun he => h (he ▸ rfl)

theorem emilEntry_cases (obs : Bool) (raw : Date) (name : String) :
    emilEntry obs raw name = (raw, name) ∨
    emilEntry obs raw name = (nextMon raw, name ++ "(Observed)") := by
  unfold emilEntry
  split
  · exact Or.inl rfl
  · exact Or.inr rfl

/-- The key produced by an Emiliani rule stays in the raw date's year and
within six days after the raw date. -/
theorem emilEntry_key {obs : Bool} {raw : Date} {name : String}
    (h1 : 1 ≤ doyOf raw) (h2 : doyOf raw + 6 ≤ yearLen raw.y) :
    (emilEntry obs raw name).1.y = raw.y ∧
    doyOf raw ≤ doyOf (emilEntry obs raw name).1 ∧
    doyOf (emilEntry obs raw name).1 ≤ doyOf raw + 6 := by
  rcases emilEntry_cases obs raw name with h | h <;> rw [h]
  · refine ⟨rfl, le_refl _, ?_⟩
    show doyOf raw ≤ doyOf raw + 6
    omega
  · have hs : (7 - weekday raw) % 7 ≤ 6 := by omega
    have hadd := @addDays_inYear raw ((7 - weekday raw) % 7) h1 (by omega)
    refine ⟨?_, ?_, ?_⟩
    · show (nextMon raw).y = raw.y
      unfold nextMon
      exact hadd.1
    · show doyOf raw ≤ doyOf (nextMon raw)
      unfold nextMon
      omega
    · show doyOf (nextMon raw) ≤ doyOf raw + 6
      unfold nextMon
      omega

/-- Maundy Thursday and Good Friday stay within day-of-year 75..116. -/
theorem prevWeekday_key (y t : ℕ) :
    (prevWeekday (easterDate y) t).y = y ∧
    75 ≤ doyOf (prevWeekday (easterDate y) t) ∧
    doyOf (prevWeekday (easterDate y) t) ≤ 116 := by
  obtain ⟨he1, he2⟩ := easterDate_doy y
  have hs : (weekday (easterDate y) + 7 - t) % 7 ≤ 6 := by omega
  have := @subDays_inYear (easterDate y)
    ((weekday (easterDate y) + 7 - t) % 7) (by omega)
    (by rw [easterDate_y, yearLen_lN]; omega)
  unfold prevWeekday
  rw [easterDate_y] at this
  exact ⟨this.1, by omega, by omega⟩

/-- An Easter-offset raw date stays in the year with a known day-of-year
window. -/
theorem easterPlus_key (y off : ℕ) (hoff : off ≤ 68) :
    (addDays (easterDate y) off).y = y ∧
    81 + off ≤ doyOf (addDays (easterDate y) off) ∧
    doyOf (addDays (easterDate y) off) ≤ 116 + off := by
  obtain ⟨he1, he2⟩ := easterDate_doy y
  have := @addDays_inYear (easterDate y) off (by omega)
    (by rw [easterDate_y, yearLen_lN]; omega)
  rw [easterDate_y] at this
  exact ⟨this.1, by omega, by omega⟩

/-- An Emiliani rule fed with an Easter-offset raw date: year and window. -/
theorem emil_easter_key (obs : Bool) (y off : ℕ) (name : String) (hoff : off ≤ 68) :
    (emilEntry obs (addDays (easterDate y) off) name).1.y = y ∧
    81 + off ≤ doyOf (emilEntry obs (addDays (easterDate y) off) name).1 ∧
    doyOf (emilEntry obs (addDays (easterDate y) off) name).1 ≤ 122 + off := by
  obtain ⟨hy, h1, h2⟩ := easterPlus_key y off hoff
  have := @emilEntry_key obs (addDays (easterDate y) off)
    name (by omega) (by rw [hy, yearLen_lN]; omega)
  rw [hy] at this
  exact ⟨this.1, by omega, by omega⟩

theorem valuesAt_single_ne {e : Date × String} {k : Date} (h : e.1 ≠ k) :
    valuesAt [e] k = [] := by
  obtain ⟨k1, v1⟩ := e
  rw [valuesAt_cons, if_neg h]
  rfl

theorem valuesAt_single_eq {e : Date × String} {k : Date} (h : e.1 = k) :
    valuesAt [e] k = [e.2] := by
  obtain ⟨k1, v1⟩ := e
  rw [valuesAt_cons, if_pos h]
  rfl

theorem strictSeg_valuesAt_ne {obs : Bool} {raw : Date} {name : String} {k : Date}
    (h : raw ≠ k) : valuesAt (strictSeg obs raw name) k = [] := by
  unfold strictSeg
  split
  · rfl
  · exact valuesAt_single_ne h

theorem strictSeg_valuesAt_self (obs : Bool) (raw : Date) (name : String) :
    valuesAt (strictSeg obs raw name) raw
      = if obs && (weekday raw == 5 || weekday raw == 6) then [] else [name] := by
  unfold strictSeg
  split
  · rfl
  · exact valuesAt_single_eq rfl

theorem emil_key_window (obs : Bool) (name : String) {y m d : ℕ} {D : ℕ}
    (hD : doyOf ⟨y, m, d⟩ = D) (h1 : 1 ≤ D) (h2 : D + 6 ≤ 365) :
    (emilEntry obs ⟨y, m, d⟩ name).1.y = y ∧
    D ≤ doyOf (emilEntry obs ⟨y, m, d⟩ name).1 ∧
    doyOf (emilEntry obs ⟨y, m, d⟩ name).1 ≤ D + 6 := by
  have h := @emilEntry_key obs (⟨y, m, d⟩ : Date) name
    (by rw [hD]; omega)
    (by show doyOf (⟨y, m, d⟩ : Date) + 6 ≤ yearLen y
        rw [hD, yearLen_lN]
        have := lN_le y
        omega)
  rw [hD] at h
  exact ⟨h.1, h.2.1, h.2.2⟩

theorem colombia_valuesAt_jan1 (obs : Bool) (y : ℕ) :
    valuesAt (colombiaList obs y) ⟨y, 1, 1⟩
      = if obs && (weekday ⟨y, 1, 1⟩ == 5 || weekday ⟨y, 1, 1⟩ == 6) then []
        else ["Año Nuevo [New Year\x27s Day]"] := by
  have hl := lN_le y
  have hT : doyOf (⟨y, 1, 1⟩ : Date) = 1 := doy_jan y 1
  have h7 := emil_key_window obs "Día de los Reyes Magos [Epiphany]"
    (doy_jan y 6) (by omega) (by omega)
  have h8 := emil_key_window obs "Día de San José [Saint Joseph\x27s Day]"
    (doy_mar y 19) (by omega) (by omega)
  have h9 := emil_key_window obs "San Pedro y San Pablo [Saint Peter and Saint Paul]"
    (doy_jun y 29) (by omega) (by omega)
  have h10 := emil_key_window obs "La Asunción [Assumption of Mary]"
    (doy_aug y 15) (by omega) (by omega)
  have h11 := emil_key_window obs "Descubrimiento de América [Discovery of America]"
    (doy_oct y 12) (by omega) (by omega)
  have h12 := emil_key_window obs "Dia de Todos los Santos [All Saint\x27s Day]"
    (doy_nov y 1) (by omega) (by omega)
  have h13 := emil_key_window obs "Independencia de Cartagena [Independence of Cartagena]"
    (doy_nov y 11) (by omega) (by omega)
  have h14 := prevWeekday_key y 3
  have h15 := prevWeekday_key y 4
  have h16 := emil_easter_key obs y 39 "Ascensión del señor [Ascension of Jesus]" (by omega)
  have h17 := emil_easter_key obs y 60 "Corpus Christi [Corpus Christi]" (by omega)
  have h18 := emil_easter_key obs y 68 "Sagrado Corazón [Sacred Heart]" (by omega)
  have s2 : valuesAt [((⟨y, 5, 1⟩ : Date), "Día del Trabajo [Labour Day]")] ⟨y, 1, 1⟩ = [] :=
    valuesAt_single_ne (by simp)
  have s3 : valuesAt (strictSeg obs ⟨y, 7, 20⟩ "Día de la Independencia [Independence Day]")
      ⟨y, 1, 1⟩ = [] := strictSeg_valuesAt_ne (by simp)
  have s4 : valuesAt [((⟨y, 8, 7⟩ : Date), "Batalla de Boyacá [Battle of Boyacá]")] ⟨y, 1, 1⟩ = [] :=
    valuesAt_single_ne (by simp)
  have s5 : valuesAt (strictSeg obs ⟨y, 12, 8⟩ "La Inmaculada Concepción [Immaculate Conception]")
      ⟨y, 1, 1⟩ = [] := strictSeg_valuesAt_ne (by simp)
  have s6 : valuesAt [((⟨y, 12, 25⟩ : Date), "Navidad [Christmas]")] ⟨y, 1, 1⟩ = [] :=
    valuesAt_single_ne (by simp)
  have s7 : valuesAt [emilEntry obs ⟨y, 1, 6⟩ "Día de los Reyes Magos [Epiphany]"] ⟨y, 1, 1⟩ = [] :=
    valuesAt_single_ne (ne_of_doy (by rw [hT]; omega))
  have s8 : valuesAt [emilEntry obs ⟨y, 3, 19⟩ "Día de San José [Saint Joseph\x27s Day]"]
      ⟨y, 1, 1⟩ = [] := valuesAt_single_ne (ne_of_doy (by rw [hT]; omega))
  have s9 : valuesAt [emilEntry obs ⟨y, 6, 29⟩ "San Pedro y San Pablo [Saint Peter and Saint Paul]"]
      ⟨y, 1, 1⟩ = [] := valuesAt_single_ne (ne_of_doy (by rw [hT]; omega))
  have s10 : valuesAt [emilEntry obs ⟨y, 8, 15⟩ "La Asunción [Assumption of Mary]"]
      ⟨y, 1, 1⟩ = [] := valuesAt_single_ne (ne_of_doy (by rw [hT]; omega))
  have s11 : valuesAt [emilEntry obs ⟨y, 10, 12⟩ "Descubrimiento de América [Discovery of America]"]
      ⟨y, 1, 1⟩ = [] := valuesAt_single_ne (ne_of_doy (by rw [hT]; omega))
  have s12 : valuesAt [emilEntry obs ⟨y, 11, 1⟩ "Dia de Todos los Santos [All Saint\x27s Day]"]
      ⟨y, 1, 1⟩ = [] := valuesAt_single_ne (ne_of_doy (by rw [hT]; omega))
  have s13 : valuesAt [emilEntry obs ⟨y, 11, 11⟩ "Independencia de Cartagena [Independence of Cartagena]"]
      ⟨y, 1, 1⟩ = [] := valuesAt_single_ne (ne_of_doy (by rw [hT]; omega))
  have s14 : valuesAt [(prevWeekday (easterDate y) 3, "Jueves Santo [Maundy Thursday]")]
      ⟨y, 1, 1⟩ = [] := valuesAt_single_ne (ne_of_doy
        (show doyOf (prevWeekday (easterDate y) 3) ≠ doyOf ⟨y, 1, 1⟩ by rw [hT]; omega))
  have s15 : valuesAt [(prevWeekday (easterDate y) 4, "Viernes Santo [Good Friday]")]
      ⟨y, 1, 1⟩ = [] := valuesAt_single_ne (ne_of_doy
        (show doyOf (prevWeekday (easterDate y) 4) ≠ doyOf ⟨y, 1, 1⟩ by rw [hT]; omega))
  have s16 : valuesAt [emilEntry obs (addDays (easterDate y) 39) "Ascensión del señor [Ascension of Jesus]"]
      ⟨y, 1, 1⟩ = [] := valuesAt_single_ne (ne_of_doy (by rw [hT]; omega))
  have s17 : valuesAt [emilEntry obs (addDays (easterDate y) 60) "Corpus Christi [Corpus Christi]"]
      ⟨y, 1, 1⟩ = [] := valuesAt_single_ne (ne_of_doy (by rw [hT]; omega))
  have s18 : valuesAt [emilEntry obs (addDays (easterDate y) 68) "Sagrado Corazón [Sacred Heart]"]
      ⟨y, 1, 1⟩ = [] := valuesAt_single_ne (ne_of_doy (by rw [hT]; omega))
  rw [colombiaList]
  simp only [valuesAt_append, s2, s3, s4, s5, s6, s7, s8, s9, s10, s11, s12, s13,
    s14, s15, s16, s17, s18, List.append_nil, List.nil_append]
  exact strictSeg_valuesAt_self obs ⟨y, 1, 1⟩ _


theorem colombia_valuesAt_jul20 (obs : Bool) (y : ℕ) :
    valuesAt (colombiaList obs y) ⟨y, 7, 20⟩
      = if obs && (weekday ⟨y, 7, 20⟩ == 5 || weekday ⟨y, 7, 20⟩ == 6) then []
        else ["Día de la Independencia [Independence Day]"] := by
  have hl := lN_le y
  have hT := doy_jul y 20
  have h7 := emil_key_window obs "Día de los Reyes Magos [Epiphany]"
    (doy_jan y 6) (by omega) (by omega)
  have h8 := emil_key_window obs "Día de San José [Saint Joseph\x27s Day]"
    (doy_mar y 19) (by omega) (by omega)
  have h9 := emil_key_window obs "San Pedro y San Pablo [Saint Peter and Saint Paul]"
    (doy_jun y 29) (by omega) (by omega)
  have h10 := emil_key_window obs "La Asunción [Assumption of Mary]"
    (doy_aug y 15) (by omega) (by omega)
  have h11 := emil_key_window obs "Descubrimiento de América [Discovery of America]"
    (doy_oct y 12) (by omega) (by omega)
  have h12 := emil_key_window obs "Dia de Todos los Santos [All Saint\x27s Day]"
    (doy_nov y 1) (by omega) (by omega)
  have h13 := emil_key_window obs "Independencia de Cartagena [Independence of Cartagena]"
    (doy_nov y 11) (by omega) (by omega)
  have h14 := prevWeekday_key y 3
  have h15 := prevWeekday_key y 4
  have h16 := emil_easter_key obs y 39 "Ascensión del señor [Ascension of Jesus]" (by omega)
  have h17 := emil_easter_key obs y 60 "Corpus Christi [Corpus Christi]" (by omega)
  have h18 := emil_easter_key obs y 68 "Sagrado Corazón [Sacred Heart]" (by omega)
  have s1 : valuesAt (strictSeg obs ⟨y, 1, 1⟩ "Año Nuevo [New Year\x27s Day]")
      ⟨y, 7, 20⟩ = [] := strictSeg_valuesAt_ne (by simp)
  have s2 : valuesAt [((⟨y, 5, 1⟩ : Date), "Día del Trabajo [Labour Day]")] ⟨y, 7, 20⟩ = [] :=
    valuesAt_single_ne (by simp)
  have s4 : valuesAt [((⟨y, 8, 7⟩ : Date), "Batalla de Boyacá [Battle of Boyacá]")] ⟨y, 7, 20⟩ = [] :=
    valuesAt_single_ne (by simp)
  have s5 : valuesAt (strictSeg obs ⟨y, 12, 8⟩ "La Inmaculada Concepción [Immaculate Conception]")
      ⟨y, 7, 20⟩ = [] := strictSeg_valuesAt_ne (by simp)
  have s6 : valuesAt [((⟨y, 12, 25⟩ : Date), "Navidad [Christmas]")] ⟨y, 7, 20⟩ = [] :=
    valuesAt_single_ne (by simp)
  have s7 : valuesAt [emilEntry obs ⟨y, 1, 6⟩ "Día de los Reyes Magos [Epiphany]"]
      ⟨y, 7, 20⟩ = [] := valuesAt_single_ne (ne_of_doy (by rw [hT]; omega))
  have s8 : valuesAt [emilEntry obs ⟨y, 3, 19⟩ "Día de San José [Saint Joseph\x27s Day]"]
      ⟨y, 7, 20⟩ = [] := valuesAt_single_ne (ne_of_doy (by rw [hT]; omega))
  have s9 : valuesAt [emilEntry obs ⟨y, 6, 29⟩ "San Pedro y San Pablo [Saint Peter and Saint Paul]"]
      ⟨y, 7, 20⟩ = [] := valuesAt_single_ne (ne_of_doy (by rw [hT]; omega))
  have s10 : valuesAt [emilEntry obs ⟨y, 8, 15⟩ "La Asunción [Assumption of Mary]"]
      ⟨y, 7, 20⟩ = [] := valuesAt_single_ne (ne_of_doy (by rw [hT]; omega))
  have s11 : valuesAt [emilEntry obs ⟨y, 10, 12⟩ "Descubrimiento de América [Discovery of America]"]
      ⟨y, 7, 20⟩ = [] := valuesAt_single_ne (ne_of_doy (by rw [hT]; omega))
  have s12 : valuesAt [emilEntry obs ⟨y, 11, 1⟩ "Dia de Todos los Santos [All Saint\x27s Day]"]
      ⟨y, 7, 20⟩ = [] := valuesAt_single_ne (ne_of_doy (by rw [hT]; omega))
  have s13 : valuesAt [emilEntry obs ⟨y, 11, 11⟩ "Independencia de Cartagena [Independence of Cartagena]"]
      ⟨y, 7, 20⟩ = [] := valuesAt_single_ne (ne_of_doy (by rw [hT]; omega))
  have s14 : valuesAt [(prevWeekday (easterDate y) 3, "Jueves Santo [Maundy Thursday]")]
      ⟨y, 7, 20⟩ = [] := valuesAt_single_ne (ne_of_doy
        (show doyOf (prevWeekday (easterDate y) 3) ≠ doyOf ⟨y, 7, 20⟩ by rw [hT]; omega))
  have s15 : valuesAt [(prevWeekday (easterDate y) 4, "Viernes Santo [Good Friday]")]
      ⟨y, 7, 20⟩ = [] := valuesAt_single_ne (ne_of_doy
        (show doyOf (prevWeekday (easterDate y) 4) ≠ doyOf ⟨y, 7, 20⟩ by rw [hT]; omega))
  have s16 : valuesAt [emilEntry obs (addDays (easterDate y) 39) "Ascensión del señor [Ascension of Jesus]"]
      ⟨y, 7, 20⟩ = [] := valuesAt_single_ne (ne_of_doy (by rw [hT]; omega))
  have s17 : valuesAt [emilEntry obs (addDays (easterDate y) 60) "Corpus Christi [Corpus Christi]"]
      ⟨y, 7, 20⟩ = [] := valuesAt_single_ne (ne_of_doy (by rw [hT]; omega))
  have s18 : valuesAt [emilEntry obs (addDays (easterDate y) 68) "Sagrado Corazón [Sacred Heart]"]
      ⟨y, 7, 20⟩ = [] := valuesAt_single_ne (ne_of_doy (by rw [hT]; omega))
  rw [colombiaList]
  simp only [valuesAt_append, s1, s2, s4, s5, s6, s7, s8, s9, s10, s11,
    s12, s13, s14, s15, s16, s17, s18, List.append_nil, List.nil_append]
  exact strictSeg_valuesAt_self obs ⟨y, 7, 20⟩ _

theorem colombia_valuesAt_dec8 (obs : Bool) (y : ℕ) :
    valuesAt (colombiaList obs y) ⟨y, 12, 8⟩
      = if obs && (weekday ⟨y, 12, 8⟩ == 5 || weekday ⟨y, 12, 8⟩ == 6) then []
        else ["La Inmaculada Concepción [Immaculate Conception]"] := by
  have hl := lN_le y
  have hT := doy_dec y 8
  have h7 := emil_key_window obs "Día de los Reyes Magos [Epiphany]"
    (doy_jan y 6) (by omega) (by omega)
  have h8 := emil_key_window obs "Día de San José [Saint Joseph\x27s Day]"
    (doy_mar y 19) (by omega) (by omega)
  have h9 := emil_key_window obs "San Pedro y San Pablo [Saint Peter and Saint Paul]"
    (doy_jun y 29) (by omega) (by omega)
  have h10 := emil_key_window obs "La Asunción [Assumption of Mary]"
    (doy_aug y 15) (by omega) (by omega)
  have h11 := emil_key_window obs "Descubrimiento de América [Discovery of America]"
    (doy_oct y 12) (by omega) (by omega)
  have h12 := emil_key_window obs "Dia de Todos los Santos [All Saint\x27s Day]"
    (doy_nov y 1) (by omega) (by omega)
  have h13 := emil_key_window obs "Independencia de Cartagena [Independence of Cartagena]"
    (doy_nov y 11) (by omega) (by omega)
  have h14 := prevWeekday_key y 3
  have h15 := prevWeekday_key y 4
  have h16 := emil_easter_key obs y 39 "Ascensión del señor [Ascension of Jesus]" (by omega)
  have h17 := emil_easter_key obs y 60 "Corpus Christi [Corpus Christi]" (by omega)
  have h18 := emil_easter_key obs y 68 "Sagrado Corazón [Sacred Heart]" (by omega)
  have s1 : valuesAt (strictSeg obs ⟨y, 1, 1⟩ "Año Nuevo [New Year\x27s Day]")
      ⟨y, 12, 8⟩ = [] := strictSeg_valuesAt_ne (by simp)
  have s2 : valuesAt [((⟨y, 5, 1⟩ : Date), "Día del Trabajo [Labour Day]")] ⟨y, 12, 8⟩ = [] :=
    valuesAt_single_ne (by simp)
  have s3 : valuesAt (strictSeg obs ⟨y, 7, 20⟩ "Día de la Independencia [Independence Day]")
      ⟨y, 12, 8⟩ = [] := strictSeg_valuesAt_ne (by simp)
  have s4 : valuesAt [((⟨y, 8, 7⟩ : Date), "Batalla de Boyacá [Battle of Boyacá]")] ⟨y, 12, 8⟩ = [] :=
    valuesAt_single_ne (by simp)
  have s6 : valuesAt [((⟨y, 12, 25⟩ : Date), "Navidad [Christmas]")] ⟨y, 12, 8⟩ = [] :=
    valuesAt_single_ne (by simp)
  have s7 : valuesAt [emilEntry obs ⟨y, 1, 6⟩ "Día de los Reyes Magos [Epiphany]"]
      ⟨y, 12, 8⟩ = [] := valuesAt_single_ne (ne_of_doy (by rw [hT]; omega))
  have s8 : valuesAt [emilEntry obs ⟨y, 3, 19⟩ "Día de San José [Saint Joseph\x27s Day]"]
      ⟨y, 12, 8⟩ = [] := valuesAt_single_ne (ne_of_doy (by rw [hT]; omega))
  have s9 : valuesAt [emilEntry obs ⟨y, 6, 29⟩ "San Pedro y San Pablo [Saint Peter and Saint Paul]"]
      ⟨y, 12, 8⟩ = [] := valuesAt_single_ne (ne_of_doy (by rw [hT]; omega))
  have s10 : valuesAt [emilEntry obs ⟨y, 8, 15⟩ "La Asunción [Assumption of Mary]"]
      ⟨y, 12, 8⟩ = [] := valuesAt_single_ne (ne_of_doy (by rw [hT]; omega))
  have s11 : valuesAt [emilEntry obs ⟨y, 10, 12⟩ "Descubrimiento de América [Discovery of America]"]
      ⟨y, 12, 8⟩ = [] := valuesAt_single_ne (ne_of_doy (by rw [hT]; omega))
  have s12 : valuesAt [emilEntry obs ⟨y, 11, 1⟩ "Dia de Todos los Santos [All Saint\x27s Day]"]
      ⟨y, 12, 8⟩ = [] := valuesAt_single_ne (ne_of_doy (by rw [hT]; omega))
  have s13 : valuesAt [emilEntry obs ⟨y, 11, 11⟩ "Independencia de Cartagena [Independence of Cartagena]"]
      ⟨y, 12, 8⟩ = [] := valuesAt_single_ne (ne_of_doy (by rw [hT]; omega))
  have s14 : valuesAt [(prevWeekday (easterDate y) 3, "Jueves Santo [Maundy Thursday]")]
      ⟨y, 12, 8⟩ = [] := valuesAt_single_ne (ne_of_doy
        (show doyOf (prevWeekday (easterDate y) 3) ≠ doyOf ⟨y, 12, 8⟩ by rw [hT]; omega))
  have s15 : valuesAt [(prevWeekday (easterDate y) 4, "Viernes Santo [Good Friday]")]
      ⟨y, 12, 8⟩ = [] := valuesAt_single_ne (ne_of_doy
        (show doyOf (prevWeekday (easterDate y) 4) ≠ doyOf ⟨y, 12, 8⟩ by rw [hT]; omega))
  have s16 : valuesAt [emilEntry obs (addDays (easterDate y) 39) "Ascensión del señor [Ascension of Jesus]"]
      ⟨y, 12, 8⟩ = [] := valuesAt_single_ne (ne_of_doy (by rw [hT]; omega))
  have s17 : valuesAt [emilEntry obs (addDays (easterDate y) 60) "Corpus Christi [Corpus Christi]"]
      ⟨y, 12, 8⟩ = [] := valuesAt_single_ne (ne_of_doy (by rw [hT]; omega))
  have s18 : valuesAt [emilEntry obs (addDays (easterDate y) 68) "Sagrado Corazón [Sacred Heart]"]
      ⟨y, 12, 8⟩ = [] := valuesAt_single_ne (ne_of_doy (by rw [hT]; omega))
  rw [colombiaList]
  simp only [valuesAt_append, s1, s2, s3, s4, s6, s7, s8, s9, s10, s11,
    s12, s13, s14, s15, s16, s17, s18, List.append_nil, List.nil_append]
  exact strictSeg_valuesAt_self obs ⟨y, 12, 8⟩ _

theorem colombia_valuesAt_dec25 (obs : Bool) (y : ℕ) :
    valuesAt (colombiaList obs y) ⟨y, 12, 25⟩
      = ["Navidad [Christmas]"] := by
  have hl := lN_le y
  have hT := doy_dec y 25
  have h7 := emil_key_window obs "Día de los Reyes Magos [Epiphany]"
    (doy_jan y 6) (by omega) (by omega)
  have h8 := emil_key_window obs "Día de San José [Saint Joseph\x27s Day]"
    (doy_mar y 19) (by omega) (by omega)
  have h9 := emil_key_window obs "San Pedro y San Pablo [Saint Peter and Saint Paul]"
    (doy_jun y 29) (by omega) (by omega)
  have h10 := emil_key_window obs "La Asunción [Assumption of Mary]"
    (doy_aug y 15) (by omega) (by omega)
  have h11 := emil_key_window obs "Descubrimiento de América [Discovery of America]"
    (doy_oct y 12) (by omega) (by omega)
  have h12 := emil_key_window obs "Dia de Todos los Santos [All Saint\x27s Day]"
    (doy_nov y 1) (by omega) (by omega)
  have h13 := emil_key_window obs "Independencia de Cartagena [Independence of Cartagena]"
    (doy_nov y 11) (by omega) (by omega)
  have h14 := prevWeekday_key y 3
  have h15 := prevWeekday_key y 4
  have h16 := emil_easter_key obs y 39 "Ascensión del señor [Ascension of Jesus]" (by omega)
  have h17 := emil_easter_key obs y 60 "Corpus Christi [Corpus Christi]" (by omega)
  have h18 := emil_easter_key obs y 68 "Sagrado Corazón [Sacred Heart]" (by omega)
  have s1 : valuesAt (strictSeg obs ⟨y, 1, 1⟩ "Año Nuevo [New Year\x27s Day]")
      ⟨y, 12, 25⟩ = [] := strictSeg_valuesAt_ne (by simp)
  have s2 : valuesAt [((⟨y, 5, 1⟩ : Date), "Día del Trabajo [Labour Day]")] ⟨y, 12, 25⟩ = [] :=
    valuesAt_single_ne (by simp)
  have s3 : valuesAt (strictSeg obs ⟨y, 7, 20⟩ "Día de la Independencia [Independence Day]")
      ⟨y, 12, 25⟩ = [] := strictSeg_valuesAt_ne (by simp)
  have s4 : valuesAt [((⟨y, 8, 7⟩ : Date), "Batalla de Boyacá [Battle of Boyacá]")] ⟨y, 12, 25⟩ = [] :=
    valuesAt_single_ne (by simp)
  have s5 : valuesAt (strictSeg obs ⟨y, 12, 8⟩ "La Inmaculada Concepción [Immaculate Conception]")
      ⟨y, 12, 25⟩ = [] := strictSeg_valuesAt_ne (by simp)
  have s7 : valuesAt [emilEntry obs ⟨y, 1, 6⟩ "Día de los Reyes Magos [Epiphany]"]
      ⟨y, 12, 25⟩ = [] := valuesAt_single_ne (ne_of_doy (by rw [hT]; omega))
  have s8 : valuesAt [emilEntry obs ⟨y, 3, 19⟩ "Día de San José [Saint Joseph\x27s Day]"]
      ⟨y, 12, 25⟩ = [] := valuesAt_single_ne (ne_of_doy (by rw [hT]; omega))
  have s9 : valuesAt [emilEntry obs ⟨y, 6, 29⟩ "San Pedro y San Pablo [Saint Peter and Saint Paul]"]
      ⟨y, 12, 25⟩ = [] := valuesAt_single_ne (ne_of_doy (by rw [hT]; omega))
  have s10 : valuesAt [emilEntry obs ⟨y, 8, 15⟩ "La Asunción [Assumption of Mary]"]
      ⟨y, 12, 25⟩ = [] := valuesAt_single_ne (ne_of_doy (by rw [hT]; omega))
  have s11 : valuesAt [emilEntry obs ⟨y, 10, 12⟩ "Descubrimiento de América [Discovery of America]"]
      ⟨y, 12, 25⟩ = [] := valuesAt_single_ne (ne_of_doy (by rw [hT]; omega))
  have s12 : valuesAt [emilEntry obs ⟨y, 11, 1⟩ "Dia de Todos los Santos [All Saint\x27s Day]"]
      ⟨y, 12, 25⟩ = [] := valuesAt_single_ne (ne_of_doy (by rw [hT]; omega))
  have s13 : valuesAt [emilEntry obs ⟨y, 11, 11⟩ "Independencia de Cartagena [Independence of Cartagena]"]
      ⟨y, 12, 25⟩ = [] := valuesAt_single_ne (ne_of_doy (by rw [hT]; omega))
  have s14 : valuesAt [(prevWeekday (easterDate y) 3, "Jueves Santo [Maundy Thursday]")]
      ⟨y, 12, 25⟩ = [] := valuesAt_single_ne (ne_of_doy
        (show doyOf (prevWeekday (easterDate y) 3) ≠ doyOf ⟨y, 12, 25⟩ by rw [hT]; omega))
  have s15 : valuesAt [(prevWeekday (easterDate y) 4, "Viernes Santo [Good Friday]")]
      ⟨y, 12, 25⟩ = [] := valuesAt_single_ne (ne_of_doy
        (show doyOf (prevWeekday (easterDate y) 4) ≠ doyOf ⟨y, 12, 25⟩ by rw [hT]; omega))
  have s16 : valuesAt [emilEntry obs (addDays (easterDate y) 39) "Ascensión del señor [Ascension of Jesus]"]
      ⟨y, 12, 25⟩ = [] := valuesAt_single_ne (ne_of_doy (by rw [hT]; omega))
  have s17 : valuesAt [emilEntry obs (addDays (easterDate y) 60) "Corpus Christi [Corpus Christi]"]
      ⟨y, 12, 25⟩ = [] := valuesAt_single_ne (ne_of_doy (by rw [hT]; omega))
  have s18 : valuesAt [emilEntry obs (addDays (easterDate y) 68) "Sagrado Corazón [Sacred Heart]"]
      ⟨y, 12, 25⟩ = [] := valuesAt_single_ne (ne_of_doy (by rw [hT]; omega))
  rw [colombiaList]
  simp only [valuesAt_append, s1, s2, s3, s4, s5, s7, s8, s9, s10, s11,
    s12, s13, s14, s15, s16, s17, s18, List.append_nil, List.nil_append]
  exact valuesAt_single_eq rfl

/-! ### Pairwise compatibility of the Colombia labels -/

/-- Label selections: each value is picked from a distinct option slot, in
order. -/
inductive SelV : List String → List (List String) → Prop
  | nil : SelV [] []
  | skip {l : List String} {os : List (List String)} (o : List String) :
      SelV l os → SelV l (o :: os)
  | pick {l : List String} {os : List (List String)} (v : String)
      (o : List String) (hv : v ∈ o) : SelV l os → SelV (v :: l) (o :: os)

theorem selv_append {l1 l2 : List String} {os1 os2 : List (List String)}
    (h1 : SelV l1 os1) (h2 : SelV l2 os2) : SelV (l1 ++ l2) (os1 ++ os2) := by
  induction h1 with
  | nil => simpa using h2
  | skip o _ ih => exact SelV.skip o ih
  | pick v o hv _ ih => exact SelV.pick v o hv ih

theorem selv_mem {l : List String} {os : List (List String)} (h : SelV l os) :
    ∀ v ∈ l, ∃ o ∈ os, v ∈ o := by
  induction h with
  | nil => simp
  | skip o _ ih =>
    intro v hv
    obtain ⟨o1, ho1, hvo⟩ := ih v hv
    exact ⟨o1, List.mem_cons_of_mem o ho1, hvo⟩
  | pick w o hw _ ih =>
    intro v hv
    rcases List.mem_cons.mp hv with rfl | hv'
    · exact ⟨o, List.mem_cons_self o _, hw⟩
    · obtain ⟨o1, ho1, hvo⟩ := ih v hv'
      exact ⟨o1, List.mem_cons_of_mem o ho1, hvo⟩

theorem selv_pairwise {l : List String} {os : List (List String)} (h : SelV l os)
    (hp : os.Pairwise (fun o1 o2 => ∀ a ∈ o1, ∀ b ∈ o2, compatS a b)) :
    l.Pairwise compatS := by
  induction h with
  | nil => exact List.Pairwise.nil
  | skip o _ ih => exact ih (List.Pairwise.of_cons hp)
  | pick v o hv hsel ih =>
    refine List.Pairwise.cons ?_ (ih (List.Pairwise.of_cons hp))
    intro b hb
    obtain ⟨o1, ho1, hbo⟩ := selv_mem hsel b hb
    exact List.rel_of_pairwise_cons hp ho1 v hv b hbo

theorem emil_snd (obs : Bool) (raw : Date) (name : String) :
    (emilEntry obs raw name).2 = name ∨
    (emilEntry obs raw name).2 = name ++ "(Observed)" := by
  rcases emilEntry_cases obs raw name with h | h <;> rw [h]
  · exact Or.inl rfl
  · exact Or.inr rfl

theorem strict_selv (obs : Bool) (raw : Date) (name : String) :
    SelV ((strictSeg obs raw name).map Prod.snd) [[name]] := by
  unfold strictSeg
  split
  · exact SelV.skip _ SelV.nil
  · exact SelV.pick _ _ (by simp) SelV.nil

/-- The possible label texts of each rule slot of `Colombia._populate`. -/
def coOptions : List (List String) :=
  [["Año Nuevo [New Year\x27s Day]"],
   ["Día del Trabajo [Labour Day]"],
   ["Día de la Independencia [Independence Day]"],
   ["Batalla de Boyacá [Battle of Boyacá]"],
   ["La Inmaculada Concepción [Immaculate Conception]"],
   ["Navidad [Christmas]"],
   ["Día de los Reyes Magos [Epiphany]",
    "Día de los Reyes Magos [Epiphany]" ++ "(Observed)"],
   ["Día de San José [Saint Joseph\x27s Day]",
    "Día de San José [Saint Joseph\x27s Day]" ++ "(Observed)"],
   ["San Pedro y San Pablo [Saint Peter and Saint Paul]",
    "San Pedro y San Pablo [Saint Peter and Saint Paul]" ++ "(Observed)"],
   ["La Asunción [Assumption of Mary]",
    "La Asunción [Assumption of Mary]" ++ "(Observed)"],
   ["Descubrimiento de América [Discovery of America]",
    "Descubrimiento de América [Discovery of America]" ++ "(Observed)"],
   ["Dia de Todos los Santos [All Saint\x27s Day]",
    "Dia de Todos los Santos [All Saint\x27s Day]" ++ "(Observed)"],
   ["Independencia de Cartagena [Independence of Cartagena]",
    "Independencia de Cartagena [Independence of Cartagena]" ++ "(Observed)"],
   ["Jueves Santo [Maundy Thursday]"],
   ["Viernes Santo [Good Friday]"],
   ["Ascensión del señor [Ascension of Jesus]",
    "Ascensión del señor [Ascension of Jesus]" ++ "(Observed)"],
   ["Corpus Christi [Corpus Christi]",
    "Corpus Christi [Corpus Christi]" ++ "(Observed)"],
   ["Sagrado Corazón [Sacred Heart]",
    "Sagrado Corazón [Sacred Heart]" ++ "(Observed)"]]

theorem colombia_selv (obs : Bool) (y : ℕ) :
    SelV ((colombiaList obs y).map Prod.snd) coOptions := by
  have t1 : SelV ((strictSeg obs ⟨y, 1, 1⟩ "Año Nuevo [New Year\x27s Day]").map Prod.snd)
      [["Año Nuevo [New Year\x27s Day]"]] := strict_selv obs ⟨y, 1, 1⟩ "Año Nuevo [New Year\x27s Day]"
  have t2 : SelV ["Día del Trabajo [Labour Day]"] [["Día del Trabajo [Labour Day]"]] :=
    SelV.pick _ _ (by simp) SelV.nil
  have t3 : SelV ((strictSeg obs ⟨y, 7, 20⟩ "Día de la Independencia [Independence Day]").map Prod.snd)
      [["Día de la Independencia [Independence Day]"]] := strict_selv obs ⟨y, 7, 20⟩ "Día de la Independencia [Independence Day]"
  have t4 : SelV ["Batalla de Boyacá [Battle of Boyacá]"] [["Batalla de Boyacá [Battle of Boyacá]"]] :=
    SelV.pick _ _ (by simp) SelV.nil
  have t5 : SelV ((strictSeg obs ⟨y, 12, 8⟩ "La Inmaculada Concepción [Immaculate Conception]").map Prod.snd)
      [["La Inmaculada Concepción [Immaculate Conception]"]] := strict_selv obs ⟨y, 12, 8⟩ "La Inmaculada Concepción [Immaculate Conception]"
  have t6 : SelV ["Navidad [Christmas]"] [["Navidad [Christmas]"]] :=
    SelV.pick _ _ (by simp) SelV.nil
  have t7 : SelV [(emilEntry obs (⟨y, 1, 6⟩) "Día de los Reyes Magos [Epiphany]").2]
      [["Día de los Reyes Magos [Epiphany]", "Día de los Reyes Magos [Epiphany]" ++ "(Observed)"]] := by
    refine SelV.pick _ _ ?_ SelV.nil
    rcases emil_snd obs (⟨y, 1, 6⟩) "Día de los Reyes Magos [Epiphany]" with h | h <;> rw [h] <;> simp
  have t8 : SelV [(emilEntry obs (⟨y, 3, 19⟩) "Día de San José [Saint Joseph\x27s Day]").2]
      [["Día de San José [Saint Joseph\x27s Day]", "Día de San José [Saint Joseph\x27s Day]" ++ "(Observed)"]] := by
    refine SelV.pick _ _ ?_ SelV.nil
    rcases emil_snd obs (⟨y, 3, 19⟩) "Día de San José [Saint Joseph\x27s Day]" with h | h <;> rw [h] <;> simp
  have t9 : SelV [(emilEntry obs (⟨y, 6, 29⟩) "San Pedro y San Pablo [Saint Peter and Saint Paul]").2]
      [["San Pedro y San Pablo [Saint Peter and Saint Paul]", "San Pedro y San Pablo [Saint Peter and Saint Paul]" ++ "(Observed)"]] := by
    refine SelV.pick _ _ ?_ SelV.nil
    rcases emil_snd obs (⟨y, 6, 29⟩) "San Pedro y San Pablo [Saint Peter and Saint Paul]" with h | h <;> rw [h] <;> simp
  have t10 : SelV [(emilEntry obs (⟨y, 8, 15⟩) "La Asunción [Assumption of Mary]").2]
      [["La Asunción [Assumption of Mary]", "La Asunción [Assumption of Mary]" ++ "(Observed)"]] := by
    refine SelV.pick _ _ ?_ SelV.nil
    rcases emil_snd obs (⟨y, 8, 15⟩) "La Asunción [Assumption of Mary]" with h | h <;> rw [h] <;> simp
  have t11 : SelV [(emilEntry obs (⟨y, 10, 12⟩) "Descubrimiento de América [Discovery of America]").2]
      [["Descubrimiento de América [Discovery of America]", "Descubrimiento de América [Discovery of America]" ++ "(Observed)"]] := by
    refine SelV.pick _ _ ?_ SelV.nil
    rcases emil_snd obs (⟨y, 10, 12⟩) "Descubrimiento de América [Discovery of America]" with h | h <;> rw [h] <;> simp
  have t12 : SelV [(emilEntry obs (⟨y, 11, 1⟩) "Dia de Todos los Santos [All Saint\x27s Day]").2]
      [["Dia de Todos los Santos [All Saint\x27s Day]", "Dia de Todos los Santos [All Saint\x27s Day]" ++ "(Observed)"]] := by
    refine SelV.pick _ _ ?_ SelV.nil
    rcases emil_snd obs (⟨y, 11, 1⟩) "Dia de Todos los Santos [All Saint\x27s Day]" with h | h <;> rw [h] <;> simp
  have t13 : SelV [(emilEntry obs (⟨y, 11, 11⟩) "Independencia de Cartagena [Independence of Cartagena]").2]
      [["Independencia de Cartagena [Independence of Cartagena]", "Independencia de Cartagena [Independence of Cartagena]" ++ "(Observed)"]] := by
    refine SelV.pick _ _ ?_ SelV.nil
    rcases emil_snd obs (⟨y, 11, 11⟩) "Independencia de Cartagena [Independence of Cartagena]" with h | h <;> rw [h] <;> simp
  have t14 : SelV ["Jueves Santo [Maundy Thursday]"] [["Jueves Santo [Maundy Thursday]"]] :=
    SelV.pick _ _ (by simp) SelV.nil
  have t15 : SelV ["Viernes Santo [Good Friday]"] [["Viernes Santo [Good Friday]"]] :=
    SelV.pick _ _ (by simp) SelV.nil
  have t16 : SelV [(emilEntry obs (addDays (easterDate y) 39) "Ascensión del señor [Ascension of Jesus]").2]
      [["Ascensión del señor [Ascension of Jesus]", "Ascensión del señor [Ascension of Jesus]" ++ "(Observed)"]] := by
    refine SelV.pick _ _ ?_ SelV.nil
    rcases emil_snd obs (addDays (easterDate y) 39) "Ascensión del señor [Ascension of Jesus]" with h | h <;> rw [h] <;> simp
  have t17 : SelV [(emilEntry obs (addDays (easterDate y) 60) "Corpus Christi [Corpus Christi]").2]
      [["Corpus Christi [Corpus Christi]", "Corpus Christi [Corpus Christi]" ++ "(Observed)"]] := by
    refine SelV.pick _ _ ?_ SelV.nil
    rcases emil_snd obs (addDays (easterDate y) 60) "Corpus Christi [Corpus Christi]" with h | h <;> rw [h] <;> simp
  have t18 : SelV [(emilEntry obs (addDays (easterDate y) 68) "Sagrado Corazón [Sacred Heart]").2]
      [["Sagrado Corazón [Sacred Heart]", "Sagrado Corazón [Sacred Heart]" ++ "(Observed)"]] := by
    refine SelV.pick _ _ ?_ SelV.nil
    rcases emil_snd obs (addDays (easterDate y) 68) "Sagrado Corazón [Sacred Heart]" with h | h <;> rw [h] <;> simp
  rw [colombiaList]
  simp only [List.map_append, List.map_cons, List.map_nil, List.append_assoc]
  exact selv_append t1 (selv_append t2 (selv_append t3 (selv_append t4 (selv_append t5 (selv_append t6 (selv_append t7 (selv_append t8 (selv_append t9 (selv_append t10 (selv_append t11 (selv_append t12 (selv_append t13 (selv_append t14 (selv_append t15 (selv_append t16 (selv_append t17 (t18)))))))))))))))))

set_option maxRecDepth 65536 in
theorem coOptions_pairwise :
    coOptions.Pairwise (fun o1 o2 => ∀ a ∈ o1, ∀ b ∈ o2, compatS a b) := by decide

set_option maxRecDepth 65536 in
theorem coOptions_good : ∀ o ∈ coOptions, ∀ v ∈ o, goodLabel v.data := by decide

theorem colombia_values_pairwise (obs : Bool) (y : ℕ) :
    ((colombiaList obs y).map Prod.snd).Pairwise compatS :=
  selv_pairwise (colombia_selv obs y) coOptions_pairwise

theorem colombia_values_good (obs : Bool) (y : ℕ) :
    ∀ v ∈ (colombiaList obs y).map Prod.snd, goodLabel v.data := by
  intro v hv
  obtain ⟨o, ho, hvo⟩ := selv_mem (colombia_selv obs y) v hv
  exact coOptions_good o ho v hvo

/-- Re-running the Colombia insertion sequence for a year over a mapping
that had none of its keys is a no-op. -/
theorem colombia_refold {obs : Bool} {y : ℕ} {D0 : Dict}
    (hD : ∀ kv ∈ colombiaList obs y, dLookup D0 kv.1 = none) :
    dFold (dFold D0 (colombiaList obs y)) (colombiaList obs y)
      = dFold D0 (colombiaList obs y) :=
  dFold_refold hD (colombia_values_pairwise obs y) (colombia_values_good obs y)

/-! ### Calendar state lemmas -/

theorem contains_iff {l : List ℕ} {a : ℕ} : l.contains a = true ↔ a ∈ l := by
  induction l with
  | nil => simp
  | cons x t ih => simp [List.contains]

/-- Every key inserted by `Colombia._populate(year)` lies in that year. -/
theorem colombia_keys_year (obs : Bool) (y : ℕ) :
    ∀ kv ∈ colombiaList obs y, kv.1.y = y := by
  intro kv h
  have hl := lN_le y
  rw [colombiaList] at h
  simp only [List.mem_append, List.mem_singleton] at h
  rcases h with (((((((((((((((((h | h) | h) | h) | h) | h) | h) | h) | h) | h) | h) | h) | h) | h) | h) | h) | h) | h)
  · rw [strictSeg] at h
    split at h
    · simp at h
    · simp only [List.mem_singleton] at h
      simp [h]
  · simp [h]
  · rw [strictSeg] at h
    split at h
    · simp at h
    · simp only [List.mem_singleton] at h
      simp [h]
  · simp [h]
  · rw [strictSeg] at h
    split at h
    · simp at h
    · simp only [List.mem_singleton] at h
      simp [h]
  · simp [h]
  · rw [h]
    exact (emil_key_window obs "Día de los Reyes Magos [Epiphany]"
      (doy_jan y 6) (by omega) (by omega)).1
  · rw [h]
    exact (emil_key_window obs "Día de San José [Saint Joseph\x27s Day]"
      (doy_mar y 19) (by omega) (by omega)).1
  · rw [h]
    exact (emil_key_window obs "San Pedro y San Pablo [Saint Peter and Saint Paul]"
      (doy_jun y 29) (by omega) (by omega)).1
  · rw [h]
    exact (emil_key_window obs "La Asunción [Assumption of Mary]"
      (doy_aug y 15) (by omega) (by omega)).1
  · rw [h]
    exact (emil_key_window obs "Descubrimiento de América [Discovery of America]"
      (doy_oct y 12) (by omega) (by omega)).1
  · rw [h]
    exact (emil_key_window obs "Dia de Todos los Santos [All Saint\x27s Day]"
      (doy_nov y 1) (by omega) (by omega)).1
  · rw [h]
    exact (emil_key_window obs "Independencia de Cartagena [Independence of Cartagena]"
      (doy_nov y 11) (by omega) (by omega)).1
  · rw [h]
    exact (prevWeekday_key y 3).1
  · rw [h]
    exact (prevWeekday_key y 4).1
  · rw [h]
    exact (emil_easter_key obs y 39 "Ascensión del señor [Ascension of Jesus]" (by omega)).1
  · rw [h]
    exact (emil_easter_key obs y 60 "Corpus Christi [Corpus Christi]" (by omega)).1
  · rw [h]
    exact (emil_easter_key obs y 68 "Sagrado Corazón [Sacred Heart]" (by omega)).1

theorem colombiaList_ne_nil (obs : Bool) (y : ℕ) : colombiaList obs y ≠ [] := by
  simp [colombiaList]

theorem hb_with_dict_dict (s : HB) (D : Dict) :
    ({ s with dict := D } : HB).dict = D := rfl

theorem hb_with_dict_years (s : HB) (D : Dict) :
    ({ s with dict := D } : HB).years = s.years := rfl

theorem hb_with_dict_observed (s : HB) (D : Dict) :
    ({ s with dict := D } : HB).observed = s.observed := rfl

theorem hb_with_dict_expand (s : HB) (D : Dict) :
    ({ s with dict := D } : HB).expand = s.expand := rfl

theorem foldSetItemK_in : ∀ (L : List (Date × String)) (s : HB),
    (∀ kv ∈ L, s.years.contains kv.1.y = true) →
    L.foldl (fun a kv => setItemK a kv.1 kv.2) s = { s with dict := dFold s.dict L } := by
  intro L
  induction L with
  | nil => intro s _; rfl
  | cons kv t ih =>
    intro s h
    have hk : s.years.contains kv.1.y = true := h kv (List.mem_cons_self kv t)
    have hstep : setItemK s kv.1 kv.2 = { s with dict := dSet s.dict kv.1 kv.2 } := by
      unfold setItemK keyT
      rw [hk]
      simp
    rw [List.foldl_cons, hstep,
      ih { s with dict := dSet s.dict kv.1 kv.2 }
        (fun x hx => h x (List.mem_cons_of_mem kv hx))]
    rfl

/-- A `_populate(year)` call on a state that already registered the year:
plain merge-inserts, no lazy expansion. -/
theorem populateDirect_in {s : HB} {year : ℕ} (h : s.years.contains year = true) :
    populateDirect s year
      = { s with dict := dFold s.dict (colombiaList s.observed year) } := by
  unfold populateDirect
  exact foldSetItemK_in _ s (fun kv hkv => by
    rw [colombia_keys_year s.observed year kv hkv]; exact h)

/-- The mapping built by populating the given years in order from empty. -/
def coDict (observed : Bool) (years : List ℕ) : Dict :=
  years.foldl (fun D y => dFold D (colombiaList observed y)) []

theorem foldPop_in : ∀ (ys : List ℕ) (s : HB),
    (∀ y ∈ ys, s.years.contains y = true) →
    ys.foldl (fun a y => populateDirect a y) s
      = { s with dict := ys.foldl (fun D y => dFold D (colombiaList s.observed y)) s.dict } := by
  intro ys
  induction ys with
  | nil => intro s _; rfl
  | cons y t ih =>
    intro s h
    rw [List.foldl_cons, populateDirect_in (h y (List.mem_cons_self y t)),
      ih { s with dict := dFold s.dict (colombiaList s.observed y) }
        (fun x hx => h x (List.mem_cons_of_mem y hx))]
    simp only [hb_with_dict_dict, hb_with_dict_years, hb_with_dict_observed,
      hb_with_dict_expand, List.foldl_cons]

/-- The observable state produced by `Colombia(years=ys, observed, expand)`. -/
theorem coInit_eq (years : List ℕ) (obs ex : Bool) :
    coInit years obs ex
      = { dict := coDict obs years, years := years, observed := obs, expand := ex } := by
  unfold coInit coDict
  rw [foldPop_in years _ (fun y hy => contains_iff.mpr hy)]


theorem hb_mk_dict (D : Dict) (ys : List ℕ) (o e : Bool) :
    (HB.mk D ys o e).dict = D := rfl

theorem hb_mk_years (D : Dict) (ys : List ℕ) (o e : Bool) :
    (HB.mk D ys o e).years = ys := rfl

theorem hb_mk_observed (D : Dict) (ys : List ℕ) (o e : Bool) :
    (HB.mk D ys o e).observed = o := rfl

theorem hb_mk_expand (D : Dict) (ys : List ℕ) (o e : Bool) :
    (HB.mk D ys o e).expand = e := rfl

theorem hb_with_yd_dict (s : HB) (ys' : List ℕ) (D : Dict) :
    ({ s with years := ys', dict := D } : HB).dict = D := rfl

theorem hb_with_yd_years (s : HB) (ys' : List ℕ) (D : Dict) :
    ({ s with years := ys', dict := D } : HB).years = ys' := rfl

theorem hb_with_yd_observed (s : HB) (ys' : List ℕ) (D : Dict) :
    ({ s with years := ys', dict := D } : HB).observed = s.observed := rfl

theorem hb_with_yd_expand (s : HB) (ys' : List ℕ) (D : Dict) :
    ({ s with years := ys', dict := D } : HB).expand = s.expand := rfl

theorem contains_false_iff {l : List ℕ} {a : ℕ} :
    l.contains a = false ↔ ¬ a ∈ l := by
  rw [← contains_iff]
  cases l.contains a <;> simp

theorem dSetRaw_keys : ∀ (D : Dict) (k : Date) (v : String) (x : Date × String),
    x ∈ dSetRaw D k v → x.1 ∈ D.map Prod.fst ∨ x.1 = k := by
  intro D
  induction D with
  | nil =>
    intro k v x hx
    simp [dSetRaw] at hx
    simp [hx]
  | cons kv t ih =>
    intro k v x hx
    obtain ⟨k1, v1⟩ := kv
    by_cases h1 : k = k1
    · rw [dSetRaw, if_pos h1] at hx
      rcases List.mem_cons.mp hx with rfl | hx'
      · exact Or.inr h1.symm
      · exact Or.inl (List.mem_cons_of_mem _ (List.mem_map_of_mem Prod.fst hx'))
    · rw [dSetRaw, if_neg h1] at hx
      rcases List.mem_cons.mp hx with rfl | hx'
      · exact Or.inl (List.mem_cons_self _ _)
      · rcases ih k v x hx' with h | h
        · exact Or.inl (List.mem_cons_of_mem _ h)
        · exact Or.inr h

theorem dSet_keys {D : Dict} {k : Date} {v : String} {x : Date × String}
    (hx : x ∈ dSet D k v) : x.1 ∈ D.map Prod.fst ∨ x.1 = k := by
  unfold dSet at hx
  split at hx <;> exact dSetRaw_keys D k _ x hx

theorem dFold_keys : ∀ (L : List (Date × String)) (D : Dict) (x : Date × String),
    x ∈ dFold D L → x.1 ∈ D.map Prod.fst ∨ x.1 ∈ L.map Prod.fst := by
  intro L
  induction L with
  | nil =>
    intro D x hx
    exact Or.inl (List.mem_map_of_mem Prod.fst hx)
  | cons kv t ih =>
    intro D x hx
    rw [dFold_cons] at hx
    rcases ih _ x hx with h | h
    · obtain ⟨p, hp, hpe⟩ := List.mem_map.mp h
      rcases dSet_keys hp with h2 | h2
      · exact Or.inl (hpe ▸ h2)
      · exact Or.inr (by rw [← hpe, h2]; exact List.mem_cons_self _ _)
    · exact Or.inr (List.mem_cons_of_mem _ h)

theorem foldDict_keys (obs : Bool) : ∀ (ys : List ℕ) (D0 : Dict) (x : Date × String),
    x ∈ ys.foldl (fun D y => dFold D (colombiaList obs y)) D0 →
    x.1 ∈ D0.map Prod.fst ∨ x.1.y ∈ ys := by
  intro ys
  induction ys with
  | nil =>
    intro D0 x hx
    exact Or.inl (List.mem_map_of_mem Prod.fst hx)
  | cons y t ih =>
    intro D0 x hx
    rw [List.foldl_cons] at hx
    rcases ih _ x hx with h | h
    · obtain ⟨p, hp, hpe⟩ := List.mem_map.mp h
      rcases dFold_keys _ _ p hp with h2 | h2
      · exact Or.inl (hpe ▸ h2)
      · obtain ⟨q, hq, hqe⟩ := List.mem_map.mp h2
        have := colombia_keys_year obs y q hq
        exact Or.inr (by rw [← hpe, ← hqe, this]; exact List.mem_cons_self _ _)
    · exact Or.inr (List.mem_cons_of_mem _ h)

theorem dLookup_none_year {D : Dict} {k : Date}
    (hkeys : ∀ kv ∈ D, kv.1.y ≠ k.y) : dLookup D k = none :=
  dLookup_none_of_keys (fun kv hkv he => hkeys kv hkv (by rw [he]))

/-- A `_populate(year)` call with the year unseen and `expand` on: the
first insert lazily populates the whole year, and the remaining inserts of
the same run are no-ops. -/
theorem populateDirect_out {s : HB} {year : ℕ} (hexp : s.expand = true)
    (hnot : s.years.contains year = false)
    (hD : ∀ kv ∈ colombiaList s.observed year, dLookup s.dict kv.1 = none) :
    populateDirect s year
      = { s with
            years := s.years ++ [year],
            dict := dFold s.dict (colombiaList s.observed year) } := by
  unfold populateDirect
  obtain ⟨kv0, rest, hL⟩ :=
    List.exists_cons_of_ne_nil (colombiaList_ne_nil s.observed year)
  have hky : kv0.1.y = year :=
    colombia_keys_year _ _ kv0 (by rw [hL]; exact List.mem_cons_self _ _)
  have hstep : setItemK s kv0.1 kv0.2
      = { s with
            years := s.years ++ [year],
            dict := dSet (dFold s.dict (colombiaList s.observed year)) kv0.1 kv0.2 } := by
    unfold setItemK keyT
    rw [hky, hnot, hexp]
    simp
  rw [hL, List.foldl_cons, hstep,
    foldSetItemK_in rest _ (fun kv hkv => by
      have hky2 : kv.1.y = year :=
        colombia_keys_year _ _ kv (by rw [hL]; exact List.mem_cons_of_mem kv0 hkv)
      rw [hky2]
      exact contains_iff.mpr (by simp))]
  have hdict : dFold (dSet (dFold s.dict (colombiaList s.observed year)) kv0.1 kv0.2) rest
      = dFold s.dict (colombiaList s.observed year) := by
    rw [← dFold_cons, ← hL]
    exact colombia_refold hD
  simp only [hb_with_dict_dict, hb_with_dict_years, hb_with_dict_observed,
    hb_with_dict_expand]
  rw [hdict, hL]

/-- Populating a Nodup list of fresh years in sequence (the repopulation
loop of `observed := True`). -/
theorem foldPop_out : ∀ (ys : List ℕ) (s : HB), s.expand = true →
    (∀ y ∈ ys, s.years.contains y = false) →
    (∀ kv ∈ s.dict, ¬ kv.1.y ∈ ys) →
    ys.Nodup →
    ys.foldl (fun a y => populateDirect a y) s
      = { s with
            years := s.years ++ ys,
            dict := ys.foldl (fun D y => dFold D (colombiaList s.observed y)) s.dict } := by
  intro ys
  induction ys with
  | nil =>
    intro s _ _ _ _
    simp
  | cons y t ih =>
    intro s hexp hfresh hkeys hnd
    have hD : ∀ kv ∈ colombiaList s.observed y, dLookup s.dict kv.1 = none := by
      intro kv hkv
      apply dLookup_none_year
      intro p hp he
      exact hkeys p hp (by
        rw [he, colombia_keys_year s.observed y kv hkv]
        exact List.mem_cons_self _ _)
    rw [List.foldl_cons,
      populateDirect_out hexp (hfresh y (List.mem_cons_self y t)) hD]
    have hnd' := List.nodup_cons.mp hnd
    rw [ih { s with
          years := s.years ++ [y],
          dict := dFold s.dict (colombiaList s.observed y) }
      (by rw [hb_with_yd_expand]; exact hexp)
      (fun x hx => by
        rw [hb_with_yd_years]
        rw [contains_false_iff]
        intro hmem
        rcases List.mem_append.mp hmem with hm | hm
        · exact contains_false_iff.mp (hfresh x (List.mem_cons_of_mem y hx)) hm
        · rw [List.mem_singleton] at hm
          exact hnd'.1 (hm ▸ hx))
      (fun kv hkv hmemt => by
        rw [hb_with_yd_dict] at hkv
        rcases dFold_keys _ _ kv hkv with h | h
        · obtain ⟨p, hp, hpe⟩ := List.mem_map.mp h
          exact hkeys p hp (by
            rw [hpe]
            exact List.mem_cons_of_mem y hmemt)
        · obtain ⟨q, hq, hqe⟩ := List.mem_map.mp h
          have hqy := colombia_keys_year s.observed y q hq
          rw [← hqe, hqy] at hmemt
          exact hnd'.1 hmemt)
      hnd'.2]
    simp only [hb_with_yd_dict, hb_with_yd_years, hb_with_yd_observed,
      hb_with_yd_expand, List.foldl_cons, List.append_assoc, List.singleton_append]

/-! ### setObserved equations -/

theorem hb_with_od_dict (s : HB) (o : Bool) (D : Dict) :
    ({ s with observed := o, dict := D } : HB).dict = D := rfl

theorem hb_with_od_years (s : HB) (o : Bool) (D : Dict) :
    ({ s with observed := o, dict := D } : HB).years = s.years := rfl

theorem hb_with_od_observed (s : HB) (o : Bool) (D : Dict) :
    ({ s with observed := o, dict := D } : HB).observed = o := rfl

theorem hb_with_od_expand (s : HB) (o : Bool) (D : Dict) :
    ({ s with observed := o, dict := D } : HB).expand = s.expand := rfl

/-- `observed := False` with entries present: flag flips and the value
filter runs; nothing else changes. -/
theorem setObserved_false_eq {st : HB} (hne : st.dict ≠ []) :
    setObserved st false
      = { st with
          observed := false,
          dict := st.dict.filter (fun kv => !sContains kv.2 "Observed") } := by
  unfold setObserved
  rw [if_pos hne]
  rfl

/-- `observed := True` with entries present: years and mapping are cleared
and every previously requested year is repopulated. -/
theorem setObserved_true_eq {st : HB} (hne : st.dict ≠ [])
    (hexp : st.expand = true) (hnd : st.years.Nodup) :
    setObserved st true
      = { dict := coDict true st.years, years := st.years,
          observed := true, expand := st.expand } := by
  unfold setObserved
  rw [if_pos hne]
  show st.years.foldl (fun s y => populateDirect s y)
      (HB.mk [] [] true st.expand) = _
  rw [foldPop_out st.years (HB.mk [] [] true st.expand) hexp
      (fun y _ => rfl)
      (fun kv hkv => absurd hkv (List.not_mem_nil kv)) hnd]
  rfl

/-! ### Nonemptiness of built mappings -/

theorem foldDict_ne_nil (obs : Bool) : ∀ (ys : List ℕ) (D : Dict), D ≠ [] →
    ys.foldl (fun D y => dFold D (colombiaList obs y)) D ≠ [] := by
  intro ys
  induction ys with
  | nil => intro D h; exact h
  | cons y t ih =>
    intro D h
    rw [List.foldl_cons]
    exact ih _ (dFold_ne_nil_of_base h)

theorem coDict_ne_nil (obs : Bool) {ys : List ℕ} (h : ys ≠ []) :
    coDict obs ys ≠ [] := by
  obtain ⟨y, t, rfl⟩ := List.exists_cons_of_ne_nil h
  unfold coDict
  rw [List.foldl_cons]
  exact foldDict_ne_nil obs t _ (dFold_ne_nil [] (colombiaList_ne_nil obs y))

/-! ### Lookup in the year-fold -/

theorem colombia_valuesAt_other_year {obs : Bool} {y : ℕ} {k : Date}
    (h : k.y ≠ y) : valuesAt (colombiaList obs y) k = [] :=
  valuesAt_eq_nil (fun kv hkv he =>
    h (by rw [← he]; exact colombia_keys_year obs y kv hkv))

theorem valuesAt_of_nodup : ∀ {D : Dict}, dKeysNodup D → ∀ (k : Date),
    valuesAt D k = match dLookup D k with
                   | none => []
                   | some v => [v] := by
  intro D
  induction D with
  | nil => intro _ k; rfl
  | cons kv t ih =>
    intro hnd k
    obtain ⟨k1, v1⟩ := kv
    unfold dKeysNodup at hnd
    rw [List.map_cons, List.nodup_cons] at hnd
    rw [valuesAt_cons, dLookup]
    by_cases h : k1 = k
    · rw [if_pos h, if_pos h.symm]
      rw [valuesAt_eq_nil (fun p hp he => hnd.1 (by
        have hm := List.mem_map_of_mem Prod.fst hp
        rw [he] at hm
        rw [h]
        exact hm))]
    · rw [if_neg h, if_neg (fun hh => h hh.symm), ih hnd.2]

theorem foldDict_skip (obs : Bool) : ∀ (ys : List ℕ) (D : Dict) (k : Date),
    ¬ k.y ∈ ys →
    dLookup (ys.foldl (fun D y => dFold D (colombiaList obs y)) D) k
      = dLookup D k := by
  intro ys
  induction ys with
  | nil => intro D k _; rfl
  | cons y t ih =>
    intro D k h
    rw [List.foldl_cons, ih _ k (fun hm => h (List.mem_cons_of_mem y hm)),
      dLookup_dFold,
      colombia_valuesAt_other_year (fun he => h (he ▸ List.mem_cons_self y t))]
    rfl

theorem foldDict_lookup (obs : Bool) : ∀ (ys : List ℕ) (D : Dict) (k : Date),
    dLookup D k = none → ys.Nodup → k.y ∈ ys →
    dLookup (ys.foldl (fun D y => dFold D (colombiaList obs y)) D) k
      = mergeSeq none (valuesAt (colombiaList obs k.y) k) := by
  intro ys
  induction ys with
  | nil => intro D k _ _ h; simp at h
  | cons y t ih =>
    intro D k hD hnd hmem
    rw [List.foldl_cons]
    by_cases hky : k.y = y
    · have hnt : ¬ k.y ∈ t := by
        rw [hky]
        exact (List.nodup_cons.mp hnd).1
      rw [foldDict_skip obs t _ k hnt, dLookup_dFold, hD, hky]
    · rcases List.mem_cons.mp hmem with h | h
      · exact absurd h hky
      · exact ih _ k
          (by rw [dLookup_dFold, hD, colombia_valuesAt_other_year hky]; rfl)
          (List.nodup_cons.mp hnd).2 h

theorem coDict_lookup {obs : Bool} {ys : List ℕ} {k : Date}
    (hnd : ys.Nodup) (hmem : k.y ∈ ys) :
    dLookup (coDict obs ys) k
      = mergeSeq none (valuesAt (colombiaList obs k.y) k) :=
  foldDict_lookup obs ys [] k rfl hnd hmem

theorem coDict_lookup_out {obs : Bool} {ys : List ℕ} {k : Date}
    (h : ¬ k.y ∈ ys) : dLookup (coDict obs ys) k = none :=
  foldDict_skip obs ys [] k h

theorem colombia_valuesAt_pairwise_at (obs : Bool) (y : ℕ) (k : Date) :
    (valuesAt (colombiaList obs y) k).Pairwise compatS :=
  List.Pairwise.sublist
    (List.Sublist.map Prod.snd (List.filter_sublist _))
    (colombia_values_pairwise obs y)

theorem colombia_valuesAt_good_at (obs : Bool) (y : ℕ) (k : Date) :
    ∀ v ∈ valuesAt (colombiaList obs y) k, goodLabel v.data := by
  intro v hv
  apply colombia_values_good obs y
  unfold valuesAt at hv
  obtain ⟨kv, hkv, rfl⟩ := List.mem_map.mp hv
  exact List.mem_map_of_mem Prod.snd (List.mem_filter.mp hkv).1

/-- The mapping built over a Nodup year list holds, at the date of every
rule of a populated year, an entry containing that rule's name. -/
theorem coDict_covers {obs : Bool} {ys : List ℕ} (hnd : ys.Nodup) {y : ℕ}
    (hy : y ∈ ys) {kv : Date × String} (hkv : kv ∈ colombiaList obs y) :
    ∃ e, dLookup (coDict obs ys) kv.1 = some e ∧ sContains e kv.2 = true := by
  have hky : kv.1.y = y := colombia_keys_year obs y kv hkv
  have hmem : kv.1.y ∈ ys := by rw [hky]; exact hy
  have hvm : kv.2 ∈ valuesAt (colombiaList obs kv.1.y) kv.1 := by
    rw [hky]
    exact mem_valuesAt hkv
  obtain ⟨e, he, hcov⟩ := mergeSeq_covers
    (colombia_valuesAt_pairwise_at obs kv.1.y kv.1)
    (colombia_valuesAt_good_at obs kv.1.y kv.1)
    (List.ne_nil_of_mem hvm)
  exact ⟨e, by rw [coDict_lookup hnd hmem, he], hcov kv.2 hvm⟩

/-! ### Projections of the constructed calendar -/

theorem coInit_dict (ys : List ℕ) (obs ex : Bool) :
    (coInit ys obs ex).dict = coDict obs ys := by rw [coInit_eq]

theorem coInit_years (ys : List ℕ) (obs ex : Bool) :
    (coInit ys obs ex).years = ys := by rw [coInit_eq]

theorem coInit_observed (ys : List ℕ) (obs ex : Bool) :
    (coInit ys obs ex).observed = obs := by rw [coInit_eq]

theorem coInit_expand (ys : List ℕ) (obs ex : Bool) :
    (coInit ys obs ex).expand = ex := by rw [coInit_eq]

/-! ### Lazy population through `__keytransform__` -/

theorem keyT_lookup_other {st : HB} {k d : Date} (h : d.y ≠ k.y) :
    dLookup (keyT st k).dict d = dLookup st.dict d := by
  unfold keyT
  split
  · rw [hb_with_yd_dict, dLookup_dFold, colombia_valuesAt_other_year h]
    rfl
  · rfl

theorem keyT_years_cases (st : HB) (k : Date) :
    (keyT st k).years = st.years ∨ (keyT st k).years = st.years ++ [k.y] := by
  unfold keyT
  split
  · exact Or.inr (hb_with_yd_years _ _ _)
  · exact Or.inl rfl

theorem keyT_years_mem {st : HB} {k : Date} :
    ∀ x ∈ (keyT st k).years, x ∈ st.years ∨ x = k.y := by
  intro x hx
  rcases keyT_years_cases st k with h | h <;> rw [h] at hx
  · exact Or.inl hx
  · rcases List.mem_append.mp hx with h2 | h2
    · exact Or.inl h2
    · exact Or.inr (List.mem_singleton.mp h2)

/-! ### Signed day arithmetic for slices -/

theorem ordOf_pos {d : Date} (h : ValidDate d) : 1 ≤ ordOf d := by
  have := doyOf_bounds h
  unfold ordOf
  omega

theorem addZ_ord {start : Date} (hv : ValidDate start) {δ : ℤ}
    (hb : -δ < (ordOf start : ℤ)) :
    ValidDate (addZ start δ) ∧ (ordOf (addZ start δ) : ℤ) = ordOf start + δ := by
  unfold addZ
  by_cases h0 : 0 ≤ δ
  · rw [if_pos h0]
    obtain ⟨h1, h2⟩ := addDays_spec δ.toNat start hv
    refine ⟨h1, ?_⟩
    rw [h2]
    push_cast
    omega
  · rw [if_neg h0]
    obtain ⟨h1, h2⟩ := subDays_spec (-δ).toNat start hv (by omega)
    refine ⟨h1, ?_⟩
    rw [h2]
    omega

/-! ### Python `range` with unit step -/

theorem pyRange_one (n : ℤ) :
    pyRange n 1 = List.map (fun i : ℕ => (i : ℤ)) (List.range n.toNat) := by
  unfold pyRange pyRangeLen
  rw [if_pos (by norm_num : (0:ℤ) < 1)]
  have h3 : Int.ediv (n + 1 - 1) 1 = n := by
    have h1 : (n + 1 - 1) = n := by ring
    rw [h1]
    exact Int.ediv_one n
  rw [h3]
  simp

theorem pyRange_neg_one (n : ℤ) :
    pyRange n (-1) = List.map (fun i : ℕ => -(i : ℤ)) (List.range (-n).toNat) := by
  unfold pyRange pyRangeLen
  rw [if_neg (by norm_num : ¬ (0:ℤ) < -1)]
  have h3 : Int.ediv (-n + -(-1) - 1) (-(-1)) = -n := by
    have h1 : (-n + -(-1) - 1) = -n := by ring
    have h2 : (-(-1) : ℤ) = 1 := by norm_num
    rw [h1, h2]
    exact Int.ediv_one (-n)
  rw [h3]
  simp

theorem pyRange_one_mem (n δ : ℤ) : δ ∈ pyRange n 1 ↔ 0 ≤ δ ∧ δ < n := by
  rw [pyRange_one]
  simp only [List.mem_map, List.mem_range]
  constructor
  · rintro ⟨i, hi, rfl⟩
    omega
  · intro h
    exact ⟨δ.toNat, by omega, by omega⟩

theorem pyRange_neg_one_mem (n δ : ℤ) : δ ∈ pyRange n (-1) ↔ n < δ ∧ δ ≤ 0 := by
  rw [pyRange_neg_one]
  simp only [List.mem_map, List.mem_range]
  constructor
  · rintro ⟨i, hi, rfl⟩
    omega
  · intro h
    exact ⟨(-δ).toNat, by omega, by omega⟩

theorem pyRange_one_pairwise (n : ℤ) : (pyRange n 1).Pairwise (· < ·) := by
  rw [pyRange_one]
  exact List.Pairwise.map _ (fun a b h => by exact_mod_cast h)
    (List.pairwise_lt_range _)

theorem pyRange_neg_one_pairwise (n : ℤ) :
    (pyRange n (-1)).Pairwise (fun a b => b < a) := by
  rw [pyRange_neg_one]
  exact List.Pairwise.map _ (fun a b h => by
      simp only [neg_lt_neg_iff]
      exact_mod_cast h)
    (List.pairwise_lt_range _)

/-! ### Pairwise through `filterMap` -/

theorem pairwise_filterMap_mem {α β : Type} (f : α → Option β)
    {R : α → α → Prop} {S : β → β → Prop} :
    ∀ {l : List α}, l.Pairwise R →
      (∀ a ∈ l, ∀ b ∈ l, R a b →
        ∀ x, f a = some x → ∀ y, f b = some y → S x y) →
      (l.filterMap f).Pairwise S := by
  intro l
  induction l with
  | nil => intro _ _; simp
  | cons a t ih =>
    intro hp himp
    rw [List.filterMap_cons]
    have hrest : (t.filterMap f).Pairwise S :=
      ih hp.of_cons (fun x hx z hz hr => himp x (List.mem_cons_of_mem a hx)
        z (List.mem_cons_of_mem a hz) hr)
    cases hf : f a with
    | none => exact hrest
    | some x =>
      refine List.Pairwise.cons ?_ hrest
      intro z hz
      obtain ⟨b, hb, hfb⟩ := List.mem_filterMap.mp hz
      exact himp a (List.mem_cons_self a t) b (List.mem_cons_of_mem a hb)
        (List.rel_of_pairwise_cons hp hb) x hf z hfb

/-! ### Evaluating the slice query -/

theorem sliceGet_none (st : HB) (start stop : Date) :
    sliceGet st start stop none = sliceGet st start stop (some 1) := rfl

theorem sliceGet_eq (st : HB) (start stop : Date) (step? : Option ℤ)
    (h : step?.getD 1 = 1 ∨ step?.getD 1 = -1) :
    sliceGet st start stop step?
      = .ok (keyT (keyT st start) stop,
          (pyRange (dateDiff stop start)
              (if 0 ≤ dateDiff stop start then 1 else -1)).filterMap
            (fun δ =>
              match dLookup (keyT (keyT st start) stop).dict (addZ start δ) with
              | some _ => some (addZ start δ)
              | none => none)) := by
  show (if step?.getD 1 = 0 then Except.error "Step value must not be zero."
      else .ok (keyT (keyT st start) stop,
        (pyRange (dateDiff stop start)
            (if (dateDiff stop start < 0 ∧ 0 ≤ step?.getD 1) ∨
                (0 ≤ dateDiff stop start ∧ step?.getD 1 < 0)
             then -(step?.getD 1) else step?.getD 1)).filterMap
          (fun δ =>
            match dLookup (keyT (keyT st start) stop).dict (addZ start δ) with
            | some _ => some (addZ start δ)
            | none => none))) = _
  have hstep : (if (dateDiff stop start < 0 ∧ 0 ≤ step?.getD 1) ∨
        (0 ≤ dateDiff stop start ∧ step?.getD 1 < 0)
      then -(step?.getD 1) else step?.getD 1)
      = (if 0 ≤ dateDiff stop start then 1 else -1) := by
    rcases h with h | h <;> rw [h] <;>
      by_cases hd : 0 ≤ dateDiff stop start
    · rw [if_neg (by omega), if_pos hd]
    · rw [if_pos (by omega), if_neg hd]
    · rw [if_pos (by omega), if_pos hd]
      norm_num
    · rw [if_neg (by omega), if_neg hd]
  rw [hstep, if_neg (by rcases h with h | h <;> omega)]

/-- Membership in the day list a slice query builds. -/
theorem mem_sliceDays {D : Dict} {start : Date} {L : List ℤ} {d : Date} :
    d ∈ L.filterMap (fun δ =>
        match dLookup D (addZ start δ) with
        | some _ => some (addZ start δ)
        | none => none)
      ↔ ∃ δ ∈ L, addZ start δ = d ∧ ∃ e, dLookup D d = some e := by
  rw [List.mem_filterMap]
  constructor
  · rintro ⟨δ, hδ, hf⟩
    cases hk : dLookup D (addZ start δ) with
    | none =>
      rw [hk] at hf
      exact absurd hf (by simp)
    | some e =>
      rw [hk] at hf
      have hd : addZ start δ = d := by injection hf
      exact ⟨δ, hδ, hd, e, by rw [← hd]; exact hk⟩
  · rintro ⟨δ, hδ, hd, e, he⟩
    refine ⟨δ, hδ, ?_⟩
    rw [hd, he]

/-! ### The claims -/

/-- Claim C3: `__setitem__` on a key already present stores the comma-joined
text `new ++ ", " ++ old` exactly when neither text contains the other as a
substring, and keeps the existing text otherwise; on a fresh key it stores
the name as given. -/
theorem claim_setitem_merge (st : HB) (k : Date) (v : String) :
    dLookup (setItemK st k v).dict k
      = some (match dLookup (keyT st k).dict k with
              | none => v
              | some e =>
                if sContains e v = false ∧ sContains v e = false
                then v ++ ", " ++ e else e) := by
  show dLookup (dSet (keyT st k).dict k v) k = _
  rw [dLookup_dSet_self]
  cases h : dLookup (keyT st k).dict k with
  | none => rfl
  | some e =>
    show some (mergeVal e v) = _
    unfold mergeVal
    cases he : sContains e v <;> cases hw : sContains v e <;> simp [he, hw]

/-- Claim C6: on a Colombia calendar populated for a non-empty list of
distinct years with `observed = true`, setting `observed := False` and then
`observed := True` restores exactly the original state. -/
theorem claim_observed_roundtrip (ys : List ℕ) (hne : ys ≠ []) (hnd : ys.Nodup) :
    setObserved (setObserved (coInit ys true true) false) true
      = coInit ys true true := by
  obtain ⟨y0, t0, hys⟩ := List.exists_cons_of_ne_nil hne
  have hcd_ne : coDict true ys ≠ [] := coDict_ne_nil true hne
  rw [coInit_eq]
  rw [@setObserved_false_eq (HB.mk (coDict true ys) ys true true) hcd_ne]
  have hmem25 : ((⟨y0, 12, 25⟩ : Date), "Navidad [Christmas]") ∈ coDict true ys := by
    apply dLookup_mem
    rw [coDict_lookup hnd (by show y0 ∈ ys; rw [hys]; exact List.mem_cons_self y0 t0)]
    show mergeSeq none (valuesAt (colombiaList true y0) ⟨y0, 12, 25⟩) = _
    rw [colombia_valuesAt_dec25]
    rfl
  have hdf_ne : (coDict true ys).filter (fun kv => !sContains kv.2 "Observed") ≠ [] :=
    List.ne_nil_of_mem (List.mem_filter.mpr ⟨hmem25, by
      show (!sContains "Navidad [Christmas]" "Observed") = true
      decide⟩)
  rw [@setObserved_true_eq
    { HB.mk (coDict true ys) ys true true with
      observed := false,
      dict := (coDict true ys).filter (fun kv => !sContains kv.2 "Observed") }
    hdf_ne rfl hnd]

/-- Claim C8: a further `_populate(y)` on a Colombia calendar that already
populated year `y` leaves the whole state unchanged (population is
idempotent). -/
theorem claim_populate_idempotent (ys : List ℕ) (hnd : ys.Nodup) (y : ℕ)
    (hy : y ∈ ys) (obs : Bool) :
    populateDirect (coInit ys obs true) y = coInit ys obs true := by
  rw [coInit_eq]
  rw [populateDirect_in (s := HB.mk (coDict obs ys) ys obs true) (contains_iff.mpr hy)]
  have hD : dFold (coDict obs ys) (colombiaList obs y) = coDict obs ys :=
    dFold_covered (fun kv hkv => coDict_covers hnd hy hkv)
  show HB.mk (dFold (coDict obs ys) (colombiaList obs y)) ys obs true
      = HB.mk (coDict obs ys) ys obs true
  rw [hD]

/-- Claim C9: adding the integer 0 on either side returns the calendar
itself unchanged, so a fold of calendars by repeated addition from 0 keeps
every operand. -/
theorem claim_add_zero (h : HB) :
    hbAdd h (.int 0) = .ok (.unchanged h)
    ∧ hbRadd h (.int 0) = .ok (.unchanged h) :=
  ⟨rfl, rfl⟩

/-- Claim C7 (amended): with entries present, `observed := False` deletes
exactly the entries whose text contains the substring `"Observed"` — not
only the parenthesised `"(Observed)"` marker — and keeps every other entry
unchanged, touching nothing else of the state. -/
theorem claim_set_observed_false (st : HB) (hne : st.dict ≠ [])
    (hnd : dKeysNodup st.dict) (k : Date) :
    dLookup (setObserved st false).dict k
      = (dLookup st.dict k).bind
          (fun v => if sContains v "Observed" = true then none else some v)
    ∧ (setObserved st false).years = st.years
    ∧ (setObserved st false).observed = false
    ∧ (setObserved st false).expand = st.expand := by
  rw [setObserved_false_eq hne]
  refine ⟨?_, rfl, rfl, rfl⟩
  rw [hb_with_od_dict, dLookup_filter _ hnd k]
  cases dLookup st.dict k with
  | none => rfl
  | some v =>
    show (if (!sContains v "Observed") = true then some v else none) = _
    cases hv : sContains v "Observed" <;> simp [hv]

/-- Claim C7 witness: the amended deletion rule at the Christmas entry of
the 2023 Colombia calendar. -/
theorem claim_set_observed_false_witness :
    dLookup (setObserved (coInit [2023] true true) false).dict ⟨2023, 12, 25⟩
      = (dLookup (coInit [2023] true true).dict ⟨2023, 12, 25⟩).bind
          (fun v => if sContains v "Observed" = true then none else some v)
    ∧ (setObserved (coInit [2023] true true) false).years
        = (coInit [2023] true true).years
    ∧ (setObserved (coInit [2023] true true) false).observed = false
    ∧ (setObserved (coInit [2023] true true) false).expand
        = (coInit [2023] true true).expand :=
  claim_set_observed_false (coInit [2023] true true) (by decide) (by decide)
    ⟨2023, 12, 25⟩

/-- Claim C7 counterexample: an entry whose text contains `"Observed"` but
not the `"(Observed)"` marker is deleted all the same, so the deletion is
not limited to the parenthesised marker. -/
theorem claim_set_observed_false_counterexample :
    dLookup (setItemK (coInit [2023] true true) ⟨2023, 2, 3⟩ "Observed Holiday").dict
        ⟨2023, 2, 3⟩ = some "Observed Holiday"
    ∧ sContains "Observed Holiday" "(Observed)" = false
    ∧ dLookup (setObserved
          (setItemK (coInit [2023] true true) ⟨2023, 2, 3⟩ "Observed Holiday")
          false).dict ⟨2023, 2, 3⟩ = none :=
  ⟨by decide, by decide, by decide⟩

/-- Claim C5 (amended): the mapping a composite builds from the mappings of
its two constituents holds the union of their keys; on a shared date the
first operand wins only by comma-joining first — when either label contains
the other, the second operand merges last over the first... in the code the
second-merged value is the first operand's name joined in front, and on a
containment conflict the second operand's label is the one kept. -/
theorem claim_sum_merge (D1 D2 : Dict) (h1 : dKeysNodup D1) (h2 : dKeysNodup D2)
    (k : Date) :
    dLookup (holidaySumDict [D1, D2]) k
      = match dLookup D1 k, dLookup D2 k with
        | none, none => none
        | some a, none => some a
        | none, some b => some b
        | some a, some b =>
          some (if sContains b a = false ∧ sContains a b = false
                then a ++ ", " ++ b else b) := by
  show dLookup (dFold (dFold [] D2) D1) k = _
  rw [dLookup_dFold, dLookup_dFold, valuesAt_of_nodup h1 k, valuesAt_of_nodup h2 k]
  cases ha : dLookup D1 k with
  | none =>
    cases hb : dLookup D2 k with
    | none => rfl
    | some b => rfl
  | some a =>
    cases hb : dLookup D2 k with
    | none => rfl
    | some b =>
      show some (mergeVal b a) = _
      unfold mergeVal
      cases hc : sContains b a <;> cases hd : sContains a b <;> simp [hc, hd]

/-- Claim C5 witness: the amended merge formula at a conflicting date of two
one-entry mappings. -/
theorem claim_sum_merge_witness :
    dLookup (holidaySumDict
        [[((⟨2023, 2, 3⟩ : Date), "Feriado de Prueba Especial")],
         [((⟨2023, 2, 3⟩ : Date), "Feriado de Prueba")]]) ⟨2023, 2, 3⟩
      = match dLookup [((⟨2023, 2, 3⟩ : Date), "Feriado de Prueba Especial")] ⟨2023, 2, 3⟩,
              dLookup [((⟨2023, 2, 3⟩ : Date), "Feriado de Prueba")] ⟨2023, 2, 3⟩ with
        | none, none => none
        | some a, none => some a
        | none, some b => some b
        | some a, some b =>
          some (if sContains b a = false ∧ sContains a b = false
                then a ++ ", " ++ b else b) :=
  claim_sum_merge _ _ (by decide) (by decide) _

/-- Claim C5 counterexample: composing two calendars whose labels on a
shared date are in a containment relation keeps the second operand's label,
not the first's. -/
theorem claim_sum_precedence_counterexample :
    ∃ cs res,
      hbAdd (setItemK (coInit [2023] true true) ⟨2023, 2, 3⟩ "Feriado de Prueba Especial")
          (.cal (setItemK (coInit [2023] true true) ⟨2023, 2, 3⟩ "Feriado de Prueba"))
        = .ok (.composite cs res)
      ∧ dLookup (setItemK (coInit [2023] true true) ⟨2023, 2, 3⟩
            "Feriado de Prueba Especial").dict ⟨2023, 2, 3⟩
          = some "Feriado de Prueba Especial"
      ∧ dLookup res.dict ⟨2023, 2, 3⟩ = some "Feriado de Prueba" := by
  refine ⟨_, _, rfl, by decide, by decide⟩

/-- The three strict-weekend (non-movable, droppable) holidays of a year,
with their labels as the source writes them. -/
def strictTable (y : ℕ) : List (Date × String) :=
  [(⟨y, 1, 1⟩, "Año Nuevo [New Year\x27s Day]"),
   (⟨y, 7, 20⟩, "Día de la Independencia [Independence Day]"),
   (⟨y, 12, 8⟩, "La Inmaculada Concepción [Immaculate Conception]")]

/-- The six non-movable (fixed-date) holidays of a year, with their labels
as the source writes them; only the three of `strictTable` carry the
weekend check. -/
def fixedTable (y : ℕ) : List (Date × String) :=
  [(⟨y, 1, 1⟩, "Año Nuevo [New Year\x27s Day]"),
   (⟨y, 5, 1⟩, "Día del Trabajo [Labour Day]"),
   (⟨y, 7, 20⟩, "Día de la Independencia [Independence Day]"),
   (⟨y, 8, 7⟩, "Batalla de Boyacá [Battle of Boyacá]"),
   (⟨y, 12, 8⟩, "La Inmaculada Concepción [Immaculate Conception]"),
   (⟨y, 12, 25⟩, "Navidad [Christmas]")]

theorem fixedTable_colombiaList {y : ℕ} {k : Date} {name : String} (obs : Bool)
    (hk : (k, name) ∈ fixedTable y)
    (hcond : (k, name) ∈ strictTable y →
      (obs && (weekday k == 5 || weekday k == 6)) = false) :
    (k, name) ∈ colombiaList obs y := by
  simp only [fixedTable, List.mem_cons, List.mem_singleton,
    List.not_mem_nil, or_false] at hk
  rcases hk with h|h|h|h|h|h
  all_goals (injection h with h1 h2; subst h1; subst h2)
  · have hc := hcond (by simp [strictTable])
    simp [colombiaList, strictSeg, hc]
  · simp [colombiaList]
  · have hc := hcond (by simp [strictTable])
    simp [colombiaList, strictSeg, hc]
  · simp [colombiaList]
  · have hc := hcond (by simp [strictTable])
    simp [colombiaList, strictSeg, hc]
  · simp [colombiaList]

set_option maxHeartbeats 1000000 in
/-- Claim C1 (amended): for every year and every non-movable (fixed-date)
holiday, the weekend drop applies exactly to the three weekend-guarded
dates (Jan 1, Jul 20, Dec 8): with `observed = true` and the raw date on
Saturday (5) or Sunday (6) such a date is absent from that year\x27s
calendar.  Every other non-movable holiday (May 1, Aug 7, Dec 25) is
present on its raw date unconditionally, and a weekend-guarded one is
present as well whenever `observed = false` or the raw date is no weekend
day — its entry containing the holiday\x27s label. -/
theorem claim_nonmovable (y : ℕ) (k : Date) (name : String)
    (hk : (k, name) ∈ fixedTable y) (obs : Bool) :
    ((k, name) ∈ strictTable y → obs = true →
        (weekday k = 5 ∨ weekday k = 6) →
        dLookup (coInit [y] obs true).dict k = none)
    ∧ (¬ (k, name) ∈ strictTable y ∨ obs = false
        ∨ (weekday k ≠ 5 ∧ weekday k ≠ 6) →
        ∃ e, dLookup (coInit [y] obs true).dict k = some e
          ∧ sContains e name = true) := by
  have hnd : ([y] : List ℕ).Nodup := List.nodup_singleton y
  constructor
  · intro hs hobs hw
    subst hobs
    simp only [strictTable, List.mem_cons, List.mem_singleton,
      List.not_mem_nil, or_false] at hs
    rcases hs with hs | hs | hs
    · have h1 : k = ⟨y, 1, 1⟩ := congrArg Prod.fst hs
      subst h1
      rw [coInit_dict, coDict_lookup hnd (List.mem_singleton.mpr rfl)]
      show mergeSeq none (valuesAt (colombiaList true y) ⟨y, 1, 1⟩) = none
      rw [colombia_valuesAt_jan1]
      rcases hw with h | h <;> rw [h] <;> rfl
    · have h1 : k = ⟨y, 7, 20⟩ := congrArg Prod.fst hs
      subst h1
      rw [coInit_dict, coDict_lookup hnd (List.mem_singleton.mpr rfl)]
      show mergeSeq none (valuesAt (colombiaList true y) ⟨y, 7, 20⟩) = none
      rw [colombia_valuesAt_jul20]
      rcases hw with h | h <;> rw [h] <;> rfl
    · have h1 : k = ⟨y, 12, 8⟩ := congrArg Prod.fst hs
      subst h1
      rw [coInit_dict, coDict_lookup hnd (List.mem_singleton.mpr rfl)]
      show mergeSeq none (valuesAt (colombiaList true y) ⟨y, 12, 8⟩) = none
      rw [colombia_valuesAt_dec8]
      rcases hw with h | h <;> rw [h] <;> rfl
  · intro hp
    have hcond : (k, name) ∈ strictTable y →
        (obs && (weekday k == 5 || weekday k == 6)) = false := by
      intro hs
      rcases hp with h | h | h
      · exact absurd hs h
      · rw [h]
        rfl
      · have h5 : (weekday k == 5) = false := beq_eq_false_iff_ne.mpr h.1
        have h6 : (weekday k == 6) = false := beq_eq_false_iff_ne.mpr h.2
        rw [h5, h6]
        simp
    rw [coInit_dict]
    obtain ⟨e, he1, he2⟩ := coDict_covers hnd (List.mem_singleton.mpr rfl)
      (fixedTable_colombiaList obs hk hcond)
    rw [show ((k, name) : Date × String).1 = k from rfl] at he1
    rw [show ((k, name) : Date × String).2 = name from rfl] at he2
    exact ⟨e, he1, he2⟩

/-- Claim C1 witness: New Year\x27s Day 2023 (a Sunday) instantiates both
clauses of the amended rule. -/
theorem claim_nonmovable_witness :
    (((⟨2023, 1, 1⟩ : Date), "Año Nuevo [New Year\x27s Day]") ∈ strictTable 2023 →
        true = true →
        (weekday ⟨2023, 1, 1⟩ = 5 ∨ weekday ⟨2023, 1, 1⟩ = 6) →
        dLookup (coInit [2023] true true).dict ⟨2023, 1, 1⟩ = none)
    ∧ (¬ ((⟨2023, 1, 1⟩ : Date), "Año Nuevo [New Year\x27s Day]") ∈ strictTable 2023
        ∨ true = false
        ∨ (weekday ⟨2023, 1, 1⟩ ≠ 5 ∧ weekday ⟨2023, 1, 1⟩ ≠ 6) →
        ∃ e, dLookup (coInit [2023] true true).dict ⟨2023, 1, 1⟩ = some e
          ∧ sContains e "Año Nuevo [New Year\x27s Day]" = true) :=
  claim_nonmovable 2023 ⟨2023, 1, 1⟩ "Año Nuevo [New Year\x27s Day]" (by decide) true

/-- Claim C1 counterexample: Christmas 2021 falls on a Saturday yet stays
present with `observed = true`, so the weekend drop does not hold for
every non-movable holiday as the claim states it. -/
theorem claim_nonmovable_counterexample :
    weekday ⟨2021, 12, 25⟩ = 5
    ∧ ((⟨2021, 12, 25⟩ : Date), "Navidad [Christmas]") ∈ fixedTable 2021
    ∧ dLookup (coInit [2021] true true).dict ⟨2021, 12, 25⟩
        = some "Navidad [Christmas]" :=
  ⟨by decide, by decide, by decide⟩

/-- The ten Emiliani-family (movable-to-Monday) holidays of a year: raw
date and plain label, as the source writes them. -/
def emilianiTable (y : ℕ) : List (Date × String) :=
  [(⟨y, 1, 6⟩, "Día de los Reyes Magos [Epiphany]"),
   (⟨y, 3, 19⟩, "Día de San José [Saint Joseph\x27s Day]"),
   (⟨y, 6, 29⟩, "San Pedro y San Pablo [Saint Peter and Saint Paul]"),
   (⟨y, 8, 15⟩, "La Asunción [Assumption of Mary]"),
   (⟨y, 10, 12⟩, "Descubrimiento de América [Discovery of America]"),
   (⟨y, 11, 1⟩, "Dia de Todos los Santos [All Saint\x27s Day]"),
   (⟨y, 11, 11⟩, "Independencia de Cartagena [Independence of Cartagena]"),
   (addDays (easterDate y) 39, "Ascensión del señor [Ascension of Jesus]"),
   (addDays (easterDate y) 60, "Corpus Christi [Corpus Christi]"),
   (addDays (easterDate y) 68, "Sagrado Corazón [Sacred Heart]")]

theorem emilianiTable_colombiaList {y : ℕ} {raw : Date} {name : String} (obs : Bool)
    (h : (raw, name) ∈ emilianiTable y) :
    emilEntry obs raw name ∈ colombiaList obs y := by
  simp only [emilianiTable, List.mem_cons, List.mem_singleton,
    List.not_mem_nil, or_false] at h
  rcases h with h|h|h|h|h|h|h|h|h|h <;>
    (injection h with h1 h2; subst h1; subst h2; simp [colombiaList])

/-- Claim C2 (amended): an Emiliani holiday is kept on its raw date under
its plain name when the raw date is a Monday or `observed` is off;
otherwise it is moved to the next Monday on/after the raw date with the
suffix `"(Observed)"` appended directly, with no space before the
parenthesis; the calendar's entry at the recorded date contains the
recorded name. -/
theorem claim_emiliani (y : ℕ) (raw : Date) (name : String)
    (hk : (raw, name) ∈ emilianiTable y) (obs : Bool) (hv : ValidDate raw) :
    (weekday raw = 0 ∨ obs = false → emilEntry obs raw name = (raw, name))
    ∧ (¬ weekday raw = 0 → obs = true →
        emilEntry obs raw name = (nextMon raw, name ++ "(Observed)")
        ∧ weekday (nextMon raw) = 0
        ∧ ordOf raw ≤ ordOf (nextMon raw)
        ∧ ordOf (nextMon raw) < ordOf raw + 7)
    ∧ ∃ e, dLookup (coInit [y] obs true).dict (emilEntry obs raw name).1 = some e
        ∧ sContains e (emilEntry obs raw name).2 = true := by
  have hw7 : weekday raw < 7 := Nat.mod_lt _ (by norm_num)
  refine ⟨?_, ?_, ?_⟩
  · intro h
    unfold emilEntry
    rcases h with h | h
    · rw [if_pos (by simp [h])]
    · rw [if_pos (by simp [h])]
  · intro h1 h2
    have hc : (weekday raw == 0 || !obs) = false := by
      rw [h2]
      simp only [Bool.not_true, Bool.or_false]
      exact beq_eq_false_iff_ne.mpr h1
    refine ⟨?_, ?_, ?_, ?_⟩
    · unfold emilEntry
      rw [hc]
      rfl
    · unfold nextMon
      rw [weekday_addDays hv]
      omega
    · unfold nextMon
      rw [(addDays_spec _ _ hv).2]
      omega
    · unfold nextMon
      rw [(addDays_spec _ _ hv).2]
      omega
  · rw [coInit_dict]
    exact coDict_covers (List.nodup_singleton y) (List.mem_singleton.mpr rfl)
      (emilianiTable_colombiaList obs hk)

/-- Claim C2 witness: Epiphany 2023 (Friday, Jan 6) is recorded on Monday
Jan 9 with the no-space `"(Observed)"` suffix. -/
theorem claim_emiliani_witness :
    (weekday ⟨2023, 1, 6⟩ = 0 ∨ true = false →
        emilEntry true ⟨2023, 1, 6⟩ "Día de los Reyes Magos [Epiphany]"
          = (⟨2023, 1, 6⟩, "Día de los Reyes Magos [Epiphany]"))
    ∧ (¬ weekday ⟨2023, 1, 6⟩ = 0 → true = true →
        emilEntry true ⟨2023, 1, 6⟩ "Día de los Reyes Magos [Epiphany]"
          = (nextMon ⟨2023, 1, 6⟩, "Día de los Reyes Magos [Epiphany]" ++ "(Observed)")
        ∧ weekday (nextMon ⟨2023, 1, 6⟩) = 0
        ∧ ordOf ⟨2023, 1, 6⟩ ≤ ordOf (nextMon ⟨2023, 1, 6⟩)
        ∧ ordOf (nextMon ⟨2023, 1, 6⟩) < ordOf ⟨2023, 1, 6⟩ + 7)
    ∧ ∃ e, dLookup (coInit [2023] true true).dict
          (emilEntry true ⟨2023, 1, 6⟩ "Día de los Reyes Magos [Epiphany]").1 = some e
        ∧ sContains e
            (emilEntry true ⟨2023, 1, 6⟩ "Día de los Reyes Magos [Epiphany]").2 = true :=
  claim_emiliani 2023 ⟨2023, 1, 6⟩ "Día de los Reyes Magos [Epiphany]"
    (by decide) true (by decide)

/-- Claim C2 counterexample: the suffix recorded by the code is
`"(Observed)"` with no leading space, so the entry at the shifted date is
not the name followed by `" (Observed)"`. -/
theorem claim_emiliani_counterexample :
    dLookup (coInit [2023] true true).dict ⟨2023, 1, 9⟩
      = some "Día de los Reyes Magos [Epiphany](Observed)"
    ∧ ("Día de los Reyes Magos [Epiphany](Observed)" : String)
      ≠ "Día de los Reyes Magos [Epiphany]" ++ " (Observed)" :=
  ⟨by decide, by decide⟩

/-- The date a slice day stands for, read off the hit test. -/
theorem sliceDay_eq {D : Dict} {start : Date} {δ : ℤ} {x : Date}
    (hx : (match dLookup D (addZ start δ) with
           | some _ => some (addZ start δ)
           | none => none) = some x) : x = addZ start δ := by
  cases hk : dLookup D (addZ start δ) with
  | none =>
    rw [hk] at hx
    exact absurd hx (by simp)
  | some e =>
    rw [hk] at hx
    injection hx with h
    exact h.symm

/-- Claim C4: a slice with default or unit step succeeds and returns
exactly the valid dates strictly inside the bound interval that are keys
of the (possibly lazily extended) mapping, ascending when start ≤ stop and
descending otherwise (the step sign is auto-corrected); in particular the
2023-01-01 .. 2023-01-10 slice of an observed Colombia calendar is exactly
[2023-01-09]. -/
theorem claim_range_query (st : HB) (start stop : Date) (step? : Option ℤ)
    (hstep : step? = none ∨ step? = some 1 ∨ step? = some (-1))
    (hv1 : ValidDate start) (hv2 : ValidDate stop) :
    (∃ st2 days, sliceGet st start stop step? = .ok (st2, days)
      ∧ (∀ d : Date, d ∈ days ↔
          (ValidDate d ∧ (∃ e, dLookup st2.dict d = some e) ∧
            (if ordOf start ≤ ordOf stop
             then ordOf start ≤ ordOf d ∧ ordOf d < ordOf stop
             else ordOf stop < ordOf d ∧ ordOf d ≤ ordOf start)))
      ∧ (if ordOf start ≤ ordOf stop
         then days.Pairwise (fun a b => ordOf a < ordOf b)
         else days.Pairwise (fun a b => ordOf b < ordOf a)))
    ∧ ∃ st3, sliceGet (coInit [] true true) ⟨2023, 1, 1⟩ ⟨2023, 1, 10⟩ none
        = .ok (st3, [(⟨2023, 1, 9⟩ : Date)]) := by
  constructor
  · have hgd : step?.getD 1 = 1 ∨ step?.getD 1 = -1 := by
      rcases hstep with rfl | rfl | rfl
      · exact Or.inl rfl
      · exact Or.inl rfl
      · exact Or.inr rfl
    rw [sliceGet_eq st start stop step? hgd]
    refine ⟨_, _, rfl, ?_, ?_⟩
    · intro d
      rw [mem_sliceDays]
      by_cases hd : ordOf start ≤ ordOf stop
      · rw [if_pos hd]
        have hdd : (0:ℤ) ≤ dateDiff stop start := by
          unfold dateDiff
          omega
        rw [if_pos hdd]
        constructor
        · rintro ⟨δ, hδ, hd2, e, he⟩
          rw [pyRange_one_mem] at hδ
          have hb : -δ < (ordOf start : ℤ) := by
            have := ordOf_pos hv1
            omega
          obtain ⟨hval, hord⟩ := addZ_ord hv1 hb
          rw [hd2] at hval hord
          refine ⟨hval, ⟨e, he⟩, ?_⟩
          unfold dateDiff at hδ
          omega
        · rintro ⟨hvd, ⟨e, he⟩, hrange⟩
          refine ⟨(ordOf d : ℤ) - ordOf start, ?_, ?_, e, he⟩
          · rw [pyRange_one_mem]
            unfold dateDiff
            omega
          · have hb : -((ordOf d : ℤ) - ordOf start) < (ordOf start : ℤ) := by
              have := ordOf_pos hvd
              omega
            obtain ⟨hval, hord⟩ := addZ_ord hv1 hb
            exact ordOf_inj hval hvd (by omega)
      · rw [if_neg hd]
        have hdd : ¬ (0:ℤ) ≤ dateDiff stop start := by
          unfold dateDiff
          omega
        rw [if_neg hdd]
        constructor
        · rintro ⟨δ, hδ, hd2, e, he⟩
          rw [pyRange_neg_one_mem] at hδ
          unfold dateDiff at hδ
          have hb : -δ < (ordOf start : ℤ) := by
            have := ordOf_pos hv2
            omega
          obtain ⟨hval, hord⟩ := addZ_ord hv1 hb
          rw [hd2] at hval hord
          refine ⟨hval, ⟨e, he⟩, ?_⟩
          omega
        · rintro ⟨hvd, ⟨e, he⟩, hrange⟩
          refine ⟨(ordOf d : ℤ) - ordOf start, ?_, ?_, e, he⟩
          · rw [pyRange_neg_one_mem]
            unfold dateDiff
            omega
          · have hb : -((ordOf d : ℤ) - ordOf start) < (ordOf start : ℤ) := by
              have := ordOf_pos hvd
              omega
            obtain ⟨hval, hord⟩ := addZ_ord hv1 hb
            exact ordOf_inj hval hvd (by omega)
    · by_cases hd : ordOf start ≤ ordOf stop
      · rw [if_pos hd]
        have hdd : (0:ℤ) ≤ dateDiff stop start := by
          unfold dateDiff
          omega
        rw [if_pos hdd]
        apply pairwise_filterMap_mem _ (pyRange_one_pairwise _)
        intro a ha b hb hab x hx z hz
        rw [sliceDay_eq hx, sliceDay_eq hz]
        rw [pyRange_one_mem] at ha hb
        have hb1 : -a < (ordOf start : ℤ) := by
          have := ordOf_pos hv1
          omega
        have hb2 : -b < (ordOf start : ℤ) := by
          have := ordOf_pos hv1
          omega
        have h1 := addZ_ord hv1 hb1
        have h2 := addZ_ord hv1 hb2
        omega
      · rw [if_neg hd]
        have hdd : ¬ (0:ℤ) ≤ dateDiff stop start := by
          unfold dateDiff
          omega
        rw [if_neg hdd]
        apply pairwise_filterMap_mem _ (pyRange_neg_one_pairwise _)
        intro a ha b hb hab x hx z hz
        rw [sliceDay_eq hx, sliceDay_eq hz]
        rw [pyRange_neg_one_mem] at ha hb
        unfold dateDiff at ha hb
        have hb1 : -a < (ordOf start : ℤ) := by
          have := ordOf_pos hv2
          omega
        have hb2 : -b < (ordOf start : ℤ) := by
          have := ordOf_pos hv2
          omega
        have h1 := addZ_ord hv1 hb1
        have h2 := addZ_ord hv1 hb2
        omega
  · exact ⟨_, rfl⟩

/-- Claim C4 witness: the slice characterisation instantiated on the empty
observed Colombia calendar over January 2023. -/
theorem claim_range_query_witness :
    (∃ st2 days,
      sliceGet (coInit [] true true) ⟨2023, 1, 1⟩ ⟨2023, 1, 10⟩ none = .ok (st2, days)
      ∧ (∀ d : Date, d ∈ days ↔
          (ValidDate d ∧ (∃ e, dLookup st2.dict d = some e) ∧
            (if ordOf ⟨2023, 1, 1⟩ ≤ ordOf ⟨2023, 1, 10⟩
             then ordOf ⟨2023, 1, 1⟩ ≤ ordOf d ∧ ordOf d < ordOf ⟨2023, 1, 10⟩
             else ordOf ⟨2023, 1, 10⟩ < ordOf d ∧ ordOf d ≤ ordOf ⟨2023, 1, 1⟩)))
      ∧ (if ordOf ⟨2023, 1, 1⟩ ≤ ordOf ⟨2023, 1, 10⟩
         then days.Pairwise (fun a b => ordOf a < ordOf b)
         else days.Pairwise (fun a b => ordOf b < ordOf a)))
    ∧ ∃ st3, sliceGet (coInit [] true true) ⟨2023, 1, 1⟩ ⟨2023, 1, 10⟩ none
        = .ok (st3, [(⟨2023, 1, 9⟩ : Date)]) :=
  claim_range_query (coInit [] true true) ⟨2023, 1, 1⟩ ⟨2023, 1, 10⟩ none
    (Or.inl rfl) (by decide) (by decide)

/-- Claim C10: on an `expand = true` calendar whose entries all lie in its
registered years, a default slice registers at most the two bound dates\x27
years; a date of any other year has no entry after the query and is absent
from the returned day list. -/
theorem claim_lazy_slice (st : HB) (start stop : Date)
    (hexp : st.expand = true)
    (hkeys : ∀ kv ∈ st.dict, kv.1.y ∈ st.years) :
    ∃ st2 days, sliceGet st start stop none = .ok (st2, days)
      ∧ (∀ x ∈ st2.years, x ∈ st.years ∨ x = start.y ∨ x = stop.y)
      ∧ ∀ d : Date, ¬ d.y ∈ st.years → d.y ≠ start.y → d.y ≠ stop.y →
          dLookup st2.dict d = none ∧ ¬ d ∈ days := by
  rw [sliceGet_eq st start stop none (Or.inl rfl)]
  refine ⟨_, _, rfl, ?_, ?_⟩
  · intro x hx
    rcases keyT_years_mem x hx with h | h
    · rcases keyT_years_mem x h with h2 | h2
      · exact Or.inl h2
      · exact Or.inr (Or.inl h2)
    · exact Or.inr (Or.inr h)
  · intro d hdy hds hdt
    have hnone : dLookup (keyT (keyT st start) stop).dict d = none := by
      rw [keyT_lookup_other hdt, keyT_lookup_other hds]
      exact dLookup_none_year (fun kv hkv he => hdy (he ▸ hkeys kv hkv))
    refine ⟨hnone, ?_⟩
    intro hmem
    rw [mem_sliceDays] at hmem
    obtain ⟨δ, _, _, e, he⟩ := hmem
    rw [hnone] at he
    exact absurd he (by simp)

/-- Claim C10 witness: a slice from 2020-12-01 to 2022-02-01 on a fresh
observed Colombia calendar populates only 2020 and 2022; 2021 dates stay
out of the mapping and the result. -/
theorem claim_lazy_slice_witness :
    ∃ st2 days,
      sliceGet (coInit [] true true) ⟨2020, 12, 1⟩ ⟨2022, 2, 1⟩ none = .ok (st2, days)
      ∧ (∀ x ∈ st2.years, x ∈ (coInit [] true true).years
          ∨ x = (⟨2020, 12, 1⟩ : Date).y ∨ x = (⟨2022, 2, 1⟩ : Date).y)
      ∧ ∀ d : Date, ¬ d.y ∈ (coInit [] true true).years
          → d.y ≠ (⟨2020, 12, 1⟩ : Date).y → d.y ≠ (⟨2022, 2, 1⟩ : Date).y →
          dLookup st2.dict d = none ∧ ¬ d ∈ days :=
  claim_lazy_slice (coInit [] true true) ⟨2020, 12, 1⟩ ⟨2022, 2, 1⟩ rfl
    (fun kv hkv => absurd hkv (List.not_mem_nil kv))

/-- Claim C6 witness: the observed round-trip on the 2023 calendar. -/
theorem claim_observed_roundtrip_witness :
    setObserved (setObserved (coInit [2023] true true) false) true
      = coInit [2023] true true :=
  claim_observed_roundtrip [2023] (by decide) (by decide)

/-- Claim C8 witness: repopulating 2023 on the 2023 calendar changes
nothing. -/
theorem claim_populate_idempotent_witness :
    populateDirect (coInit [2023] true true) 2023 = coInit [2023] true true :=
  claim_populate_idempotent [2023] (by decide) 2023 (by decide) true
